import Mathlib

/-!
Verification of the `TreeStore` class from `src/src/utils/TreeStore.ts`.

The store keeps two coupled indices over one record set:
* `items`        : a primary index, identifier to record (a JS `Map`),
* `childrenMap`  : a secondary index, parent identifier to ordered list of
  direct children (a JS `Map` of arrays).

JS `Map`s are embedded as association lists with insertion-order semantics:
`set` overwrites in place, otherwise appends; `delete` removes the (unique)
entry; iteration follows the list order.  Identifiers are the tagged union
`string | number` with variant-exact equality, as in the source.

The two traversals (`getAllChildren`, `getAllParents`) are `while` loops in
the source and can diverge on malformed (bulk-loaded) data, so they are
embedded with an explicit fuel and return `Option`: `none` models
non-termination of the loop.  The fuel bounds are chosen large enough that
every terminating run of the source loop is reproduced (see `fuelBound`),
and for stores satisfying the documented invariants termination is proved
below.
-/

/-- Identifier: the source's `string | number` with variant-exact equality. -/
inductive Ident where
  | str (s : String)
  | num (n : Int)
deriving DecidableEq, Repr

/-- The `TreeStoreItem` interface: `id`, `parent`, `label` plus an opaque
open bag of extra fields (modelled as a list of key/value pairs). -/
structure TreeStoreItem where
  id : Ident
  parent : Option Ident
  label : String
  extra : List (String × String)
deriving DecidableEq, Repr

/-- The four error conditions thrown by the source methods. -/
inductive Error where
  | itemAlreadyExists (id : Ident)
  | parentNotFound (id : Ident)
  | circularReference
  | itemNotFound (id : Ident)
deriving DecidableEq, Repr

/-- JS `Map.get`: first (unique) entry with the given key. -/
def mapGet {α : Type} (m : List (Ident × α)) (k : Ident) : Option α :=
  match m with
  | [] => none
  | p :: rest => if p.1 = k then some p.2 else mapGet rest k

/-- JS `Map.has`. -/
def mapHas {α : Type} (m : List (Ident × α)) (k : Ident) : Bool :=
  (mapGet m k).isSome

/-- JS `Map.set`: overwrite in place if the key is present, else append. -/
def mapSet {α : Type} (m : List (Ident × α)) (k : Ident) (v : α) : List (Ident × α) :=
  match m with
  | [] => [(k, v)]
  | p :: rest => if p.1 = k then (k, v) :: rest else p :: mapSet rest k v

/-- JS `Map.delete`: drop the (first = unique) entry with the given key. -/
def mapDelete {α : Type} (m : List (Ident × α)) (k : Ident) : List (Ident × α) :=
  match m with
  | [] => []
  | p :: rest => if p.1 = k then rest else p :: mapDelete rest k

/-- The source's child-list insertion: `if (!map.has(p)) map.set(p, []);
map.get(p).push(c)`. -/
def pushChild (m : List (Ident × List TreeStoreItem)) (k : Ident) (c : TreeStoreItem) :
    List (Ident × List TreeStoreItem) :=
  match m with
  | [] => [(k, [c])]
  | p :: rest => if p.1 = k then (p.1, p.2 ++ [c]) :: rest else p :: pushChild rest k c

/-- `findIndex` by id followed by `splice(index, 1)`: remove the first
record with the given id, keep the list unchanged when none matches. -/
def removeFirstById (l : List TreeStoreItem) (id : Ident) : List TreeStoreItem :=
  match l with
  | [] => []
  | c :: rest => if c.id = id then rest else c :: removeFirstById rest id

/-- Apply `removeFirstById` to the child list at key `k` (no-op when the
key is absent), as in `removeItem`/`updateItem`'s splice of a parent list. -/
def spliceChild (m : List (Ident × List TreeStoreItem)) (k : Ident) (id : Ident) :
    List (Ident × List TreeStoreItem) :=
  match m with
  | [] => []
  | p :: rest =>
    if p.1 = k then (p.1, removeFirstById p.2 id) :: rest else p :: spliceChild rest k id

/-- The `TreeStore` class state: the two indices. -/
structure TreeStore where
  items : List (Ident × TreeStoreItem)
  childrenMap : List (Ident × List TreeStoreItem)
deriving DecidableEq, Repr

namespace TreeStore

/-- The constructor's bulk load (the source's private `initialize` method):
populate the primary index unconditionally (later duplicates overwrite),
then scan the input again and push every item with non-null parent into its
parent's child list. -/
def construct (l : List TreeStoreItem) : TreeStore :=
  { items := l.foldl (fun m it => mapSet m it.id it) []
    childrenMap := l.foldl (fun m it =>
      match it.parent with
      | some p => pushChild m p it
      | none => m) [] }

/-- `getAll`: all items in iteration order of the primary index. -/
def getAll (s : TreeStore) : List TreeStoreItem :=
  s.items.map Prod.snd

/-- `getItem`: point lookup. -/
def getItem (s : TreeStore) (id : Ident) : Option TreeStoreItem :=
  mapGet s.items id

/-- `getChildren`: `childrenMap.get(id) || []`. -/
def getChildren (s : TreeStore) (id : Ident) : List TreeStoreItem :=
  (mapGet s.childrenMap id).getD []

/-- The breadth-first loop of `getAllChildren`: dequeue, emit, enqueue the
node's direct children.  `fuel` bounds the number of dequeues; `none`
models a run that exceeds it (the source loop diverges on cyclic data). -/
def getAllChildrenAux (s : TreeStore) : Nat → List TreeStoreItem → Option (List TreeStoreItem)
  | _, [] => some []
  | 0, _ :: _ => none
  | Nat.succ fuel, current :: queue =>
    (getAllChildrenAux s fuel (queue ++ getChildren s current.id)).map
      (fun rest => current :: rest)

/-- Maximum child-list length, used for the traversal fuel bound. -/
def maxChildLen (s : TreeStore) : Nat :=
  s.childrenMap.foldl (fun m e => max m e.2.length) 0

/-- Fuel for `getAllChildren`.  A terminating run of the source loop
dequeues one queue entry per traversal path from the seed; when the loop
terminates the reachable id graph is acyclic, so paths have length at most
`items.length` and there are fewer than
`(maxChildLen + 1) ^ (items.length + 2)` of them. -/
def fuelBound (s : TreeStore) : Nat :=
  (maxChildLen s + 1) ^ (s.items.length + 2)

/-- `getAllChildren`: full descendant traversal, seeded with the direct
children of `id`. -/
def getAllChildren (s : TreeStore) (id : Ident) : Option (List TreeStoreItem) :=
  getAllChildrenAux s (fuelBound s) (getChildren s id)

/-- The parent walk of `getAllParents`, excluding the starting item:
follow `current.parent` while it is non-null and resolvable. -/
def getAllParentsAux (s : TreeStore) : Nat → TreeStoreItem → Option (List TreeStoreItem)
  | fuel, current =>
    match current.parent with
    | none => some []
    | some p =>
      match mapGet s.items p with
      | none => some []
      | some par =>
        match fuel with
        | 0 => none
        | Nat.succ f => (getAllParentsAux s f par).map (fun rest => par :: rest)

/-- `getAllParents`: ancestor chain including the starting item, ordered
from the item toward the root; empty when `id` is unknown.  `none` models
divergence of the source's `while` loop on a cyclic parent chain (a
terminating run visits pairwise distinct ids, hence at most
`items.length + 1` of them). -/
def getAllParents (s : TreeStore) (id : Ident) : Option (List TreeStoreItem) :=
  match mapGet s.items id with
  | none => some []
  | some cur => (getAllParentsAux s (s.items.length + 1) cur).map (fun rest => cur :: rest)

/-- `wouldCreateCircularReference`: self-parent, or the new parent occurs
in the descendant traversal of the item. -/
def wouldCreateCircularReference (s : TreeStore) (itemId newParentId : Ident) : Option Bool :=
  if itemId = newParentId then some true
  else (getAllChildren s itemId).map (fun l => l.any (fun c => decide (c.id = newParentId)))

/-- `addItem`.  The result pairs the store state with the thrown error, if
any; every `throw` happens before any mutation, so error results carry the
unchanged state.  `none` models divergence of the internal traversal. -/
def addItem (s : TreeStore) (item : TreeStoreItem) : Option (TreeStore × Option Error) :=
  if mapHas s.items item.id then some (s, some (Error.itemAlreadyExists item.id))
  else
    match item.parent with
    | some p =>
      if mapHas s.items p = false then some (s, some (Error.parentNotFound p))
      else
        match wouldCreateCircularReference s item.id p with
        | none => none
        | some true => some (s, some Error.circularReference)
        | some false =>
          some ({ items := mapSet s.items item.id item,
                  childrenMap := pushChild s.childrenMap p item }, none)
    | none => some ({ items := mapSet s.items item.id item,
                      childrenMap := s.childrenMap }, none)

/-- `removeItem`: no-op on an unknown id; otherwise delete the item and its
full descendant traversal from both indices and splice the id out of its
parent's child list. -/
def removeItem (s : TreeStore) (id : Ident) : Option TreeStore :=
  match mapGet s.items id with
  | none => some s
  | some item =>
    (getAllChildren s id).map (fun allChildren =>
      let items1 := allChildren.foldl (fun m c => mapDelete m c.id) s.items
      let cm1 := allChildren.foldl (fun m c => mapDelete m c.id) s.childrenMap
      let items2 := mapDelete items1 id
      let cm2 := mapDelete cm1 id
      let cm3 :=
        match item.parent with
        | some p => spliceChild cm2 p id
        | none => cm2
      TreeStore.mk items2 cm3)

/-- The secondary-index rewiring performed by a successful `updateItem`:
when the parent changed, splice the id out of the old parent's list and
push the updated record onto the new parent's list; finally overwrite the
primary-index record. -/
def applyUpdate (s : TreeStore) (u existing : TreeStoreItem) : TreeStore :=
  TreeStore.mk (mapSet s.items u.id u)
    (if existing.parent = u.parent then s.childrenMap
     else
       match u.parent with
       | some np =>
         pushChild
           (match existing.parent with
             | some op => spliceChild s.childrenMap op u.id
             | none => s.childrenMap) np u
       | none =>
         match existing.parent with
         | some op => spliceChild s.childrenMap op u.id
         | none => s.childrenMap)

/-- `updateItem`, with the same result convention as `addItem`. -/
def updateItem (s : TreeStore) (u : TreeStoreItem) : Option (TreeStore × Option Error) :=
  match mapGet s.items u.id with
  | none => some (s, some (Error.itemNotFound u.id))
  | some existing =>
    match u.parent with
    | some np =>
      if mapHas s.items np = false then some (s, some (Error.parentNotFound np))
      else
        match wouldCreateCircularReference s u.id np with
        | none => none
        | some true => some (s, some Error.circularReference)
        | some false => some (applyUpdate s u existing, none)
    | none => some (applyUpdate s u existing, none)

end TreeStore

/-! ### Association-list map lemmas -/

theorem mapGet_mapSet {α : Type} (m : List (Ident × α)) (k j : Ident) (v : α) :
    mapGet (mapSet m k v) j = if j = k then some v else mapGet m j := by
  induction m with
  | nil =>
    by_cases h : j = k
    · simp [mapSet, mapGet, h]
    · have h2 : ¬ k = j := fun hh => h hh.symm
      simp [mapSet, mapGet, h, h2]
  | cons p rest ih =>
    by_cases hk : p.1 = k
    · by_cases hj : j = k
      · simp [mapSet, mapGet, hk, hj]
      · have h2 : ¬ k = j := fun hh => hj hh.symm
        have hpj : ¬ p.1 = j := by rw [hk]; exact h2
        simp [mapSet, mapGet, hk, hj, h2, hpj]
    · by_cases hj : p.1 = j
      · have h2 : ¬ j = k := by rw [← hj]; exact hk
        simp [mapSet, mapGet, hk, hj, h2]
      · simp [mapSet, mapGet, hk, hj, ih]

theorem mapGet_mem {α : Type} {m : List (Ident × α)} {k : Ident} {v : α}
    (h : mapGet m k = some v) : (k, v) ∈ m := by
  induction m with
  | nil => simp [mapGet] at h
  | cons p rest ih =>
    by_cases hk : p.1 = k
    · simp [mapGet, hk] at h
      subst hk
      simp [← h]
    · simp [mapGet, hk] at h
      exact List.mem_cons_of_mem _ (ih h)

theorem mapGet_isSome_iff {α : Type} (m : List (Ident × α)) (k : Ident) :
    (mapGet m k).isSome = true ↔ k ∈ m.map Prod.fst := by
  induction m with
  | nil => simp [mapGet]
  | cons p rest ih =>
    by_cases hk : p.1 = k
    · simp [mapGet, hk]
    · have : ¬ k = p.1 := fun h => hk h.symm
      simp [mapGet, hk, ih, this]

theorem mapGet_eq_none_iff {α : Type} (m : List (Ident × α)) (k : Ident) :
    mapGet m k = none ↔ k ∉ m.map Prod.fst := by
  rw [← mapGet_isSome_iff]
  cases mapGet m k <;> simp

theorem keys_mapSet {α : Type} (m : List (Ident × α)) (k : Ident) (v : α) :
    (mapSet m k v).map Prod.fst =
      if k ∈ m.map Prod.fst then m.map Prod.fst else m.map Prod.fst ++ [k] := by
  induction m with
  | nil => simp [mapSet]
  | cons p rest ih =>
    by_cases hk : p.1 = k
    · simp [mapSet, hk]
    · have hk2 : ¬ k = p.1 := fun h => hk h.symm
      by_cases hm : k ∈ rest.map Prod.fst
      · simp [mapSet, hk, hk2, hm, ih]
      · simp [mapSet, hk, hk2, hm, ih]

theorem mapGet_of_nodup_mem {α : Type} {m : List (Ident × α)} {k : Ident} {v : α}
    (hn : (m.map Prod.fst).Nodup) (h : (k, v) ∈ m) : mapGet m k = some v := by
  induction m with
  | nil => simp at h
  | cons p rest ih =>
    rw [List.map_cons, List.nodup_cons] at hn
    rcases List.mem_cons.mp h with h1 | h1
    · subst h1; simp [mapGet]
    · have hk : ¬ p.1 = k := by
        intro hpk
        exact hn.1 (hpk ▸ List.mem_map.mpr ⟨(k, v), h1, rfl⟩)
      simp only [mapGet, if_neg hk]
      exact ih hn.2 h1

theorem mapDelete_sublist {α : Type} (m : List (Ident × α)) (k : Ident) :
    (mapDelete m k).Sublist m := by
  induction m with
  | nil => simp [mapDelete]
  | cons p rest ih =>
    by_cases hk : p.1 = k
    · simp only [mapDelete, if_pos hk]
      exact List.sublist_cons_self p rest
    · simp only [mapDelete, if_neg hk]
      exact List.Sublist.cons₂ p ih

theorem mapGet_mapDelete {α : Type} (m : List (Ident × α)) (k j : Ident)
    (hn : (m.map Prod.fst).Nodup) :
    mapGet (mapDelete m k) j = if j = k then none else mapGet m j := by
  induction m with
  | nil => simp [mapDelete, mapGet]
  | cons p rest ih =>
    rw [List.map_cons, List.nodup_cons] at hn
    by_cases hk : p.1 = k
    · by_cases hj : j = k
      · have hpj : p.1 = j := hk.trans hj.symm
        simp only [mapDelete, if_pos hk, if_pos hj]
        rw [mapGet_eq_none_iff]
        intro hmem
        exact hn.1 (hpj ▸ hmem)
      · have hpj : ¬ p.1 = j := fun h => hj ((hk.symm.trans h).symm)
        have hkj : ¬ k = j := fun h => hj h.symm
        simp [mapDelete, hk, mapGet, hpj, hj, hkj]
    · by_cases hpj : p.1 = j
      · have hjk : ¬ j = k := fun h => hk (hpj.trans h)
        simp [mapDelete, hk, mapGet, hpj, hjk]
      · simp [mapDelete, hk, mapGet, hpj, ih hn.2]

theorem mapGet_pushChild_self (m : List (Ident × List TreeStoreItem)) (k : Ident)
    (c : TreeStoreItem) :
    mapGet (pushChild m k c) k = some ((mapGet m k).getD [] ++ [c]) := by
  induction m with
  | nil => simp [pushChild, mapGet]
  | cons p rest ih =>
    by_cases hk : p.1 = k
    · simp [pushChild, hk, mapGet]
    · simp [pushChild, hk, mapGet, ih]

theorem mapGet_pushChild_ne (m : List (Ident × List TreeStoreItem)) (k j : Ident)
    (c : TreeStoreItem) (h : ¬ j = k) :
    mapGet (pushChild m k c) j = mapGet m j := by
  have h2 : ¬ k = j := fun hh => h hh.symm
  induction m with
  | nil => simp [pushChild, mapGet, h2]
  | cons p rest ih =>
    by_cases hk : p.1 = k
    · have hpj : ¬ p.1 = j := fun hh => h2 (hk.symm.trans hh)
      simp [pushChild, hk, mapGet, hpj, h2]
    · by_cases hpj : p.1 = j
      · simp [pushChild, hk, mapGet, hpj, h, h2]
      · simp [pushChild, hk, mapGet, hpj, h, h2, ih]

theorem keys_pushChild (m : List (Ident × List TreeStoreItem)) (k : Ident) (c : TreeStoreItem) :
    (pushChild m k c).map Prod.fst =
      if k ∈ m.map Prod.fst then m.map Prod.fst else m.map Prod.fst ++ [k] := by
  induction m with
  | nil => simp [pushChild]
  | cons p rest ih =>
    by_cases hk : p.1 = k
    · simp [pushChild, hk]
    · have hk2 : ¬ k = p.1 := fun h => hk h.symm
      by_cases hm : k ∈ rest.map Prod.fst
      · simp [pushChild, hk, hk2, hm, ih]
      · simp [pushChild, hk, hk2, hm, ih]

theorem mapGet_spliceChild_self (m : List (Ident × List TreeStoreItem)) (k id : Ident) :
    mapGet (spliceChild m k id) k = (mapGet m k).map (fun l => removeFirstById l id) := by
  induction m with
  | nil => simp [spliceChild, mapGet]
  | cons p rest ih =>
    by_cases hk : p.1 = k
    · simp [spliceChild, hk, mapGet]
    · simp [spliceChild, hk, mapGet, ih]

theorem mapGet_spliceChild_ne (m : List (Ident × List TreeStoreItem)) (k j id : Ident)
    (h : ¬ j = k) :
    mapGet (spliceChild m k id) j = mapGet m j := by
  have h2 : ¬ k = j := fun hh => h hh.symm
  induction m with
  | nil => simp [spliceChild, mapGet]
  | cons p rest ih =>
    by_cases hk : p.1 = k
    · have hpj : ¬ p.1 = j := fun hh => h2 (hk.symm.trans hh)
      simp [spliceChild, hk, mapGet, hpj, h2]
    · by_cases hpj : p.1 = j
      · simp [spliceChild, hk, mapGet, hpj, h, h2]
      · simp [spliceChild, hk, mapGet, hpj, h, h2, ih]

theorem keys_spliceChild (m : List (Ident × List TreeStoreItem)) (k id : Ident) :
    (spliceChild m k id).map Prod.fst = m.map Prod.fst := by
  induction m with
  | nil => simp [spliceChild]
  | cons p rest ih =>
    by_cases hk : p.1 = k
    · simp [spliceChild, hk]
    · simp [spliceChild, hk, ih]

theorem removeFirstById_sublist (l : List TreeStoreItem) (id : Ident) :
    (removeFirstById l id).Sublist l := by
  induction l with
  | nil => simp [removeFirstById]
  | cons c rest ih =>
    by_cases hc : c.id = id
    · simp only [removeFirstById, if_pos hc]
      exact List.sublist_cons_self c rest
    · simp only [removeFirstById, if_neg hc]
      exact List.Sublist.cons₂ c ih

theorem mem_removeFirstById_iff {l : List TreeStoreItem} {id : Ident}
    (hn : (l.map TreeStoreItem.id).Nodup) (c : TreeStoreItem) :
    c ∈ removeFirstById l id ↔ c ∈ l ∧ ¬ c.id = id := by
  induction l with
  | nil => simp [removeFirstById]
  | cons x rest ih =>
    rw [List.map_cons, List.nodup_cons] at hn
    by_cases hx : x.id = id
    · simp only [removeFirstById, if_pos hx]
      constructor
      · intro hc
        refine ⟨List.mem_cons_of_mem _ hc, ?_⟩
        intro hcid
        exact hn.1 ((hcid.trans hx.symm) ▸ List.mem_map.mpr ⟨c, hc, rfl⟩)
      · rintro ⟨hc, hcid⟩
        rcases List.mem_cons.mp hc with h1 | h1
        · exact absurd (h1 ▸ hx) hcid
        · exact h1
    · simp only [removeFirstById, if_neg hx]
      constructor
      · intro hc
        rcases List.mem_cons.mp hc with h1 | h1
        · exact ⟨h1 ▸ List.mem_cons_self x rest, h1 ▸ hx⟩
        · rcases (ih hn.2).mp h1 with ⟨h2, h3⟩
          exact ⟨List.mem_cons_of_mem _ h2, h3⟩
      · rintro ⟨hc, hcid⟩
        rcases List.mem_cons.mp hc with h1 | h1
        · exact h1 ▸ List.mem_cons_self x _
        · exact List.mem_cons_of_mem _ ((ih hn.2).mpr ⟨h1, hcid⟩)

theorem mem_mapSet {α : Type} {m : List (Ident × α)} {k : Ident} {v : α} {x : Ident × α}
    (h : x ∈ mapSet m k v) : x = (k, v) ∨ x ∈ m := by
  induction m with
  | nil => simpa [mapSet] using h
  | cons p rest ih =>
    by_cases hk : p.1 = k
    · simp only [mapSet, if_pos hk] at h
      rcases List.mem_cons.mp h with h1 | h1
      · exact Or.inl h1
      · exact Or.inr (List.mem_cons_of_mem _ h1)
    · simp only [mapSet, if_neg hk] at h
      rcases List.mem_cons.mp h with h1 | h1
      · exact Or.inr (h1 ▸ List.mem_cons_self p rest)
      · rcases ih h1 with h2 | h2
        · exact Or.inl h2
        · exact Or.inr (List.mem_cons_of_mem _ h2)

/-- Last input record carrying a given id (the record the bulk load keeps
in the primary index). -/
def lastById : List TreeStoreItem → Ident → Option TreeStoreItem
  | [], _ => none
  | it :: rest, k =>
    match lastById rest k with
    | some v => some v
    | none => if k = it.id then some it else none

theorem foldl_mapSet_get (l : List TreeStoreItem) (m0 : List (Ident × TreeStoreItem))
    (k : Ident) :
    mapGet (l.foldl (fun m it => mapSet m it.id it) m0) k =
      match lastById l k with
      | some v => some v
      | none => mapGet m0 k := by
  induction l generalizing m0 with
  | nil => simp [lastById]
  | cons it rest ih =>
    simp only [List.foldl_cons, lastById]
    rw [ih]
    cases hrest : lastById rest k with
    | some v => simp
    | none =>
      rw [mapGet_mapSet]
      by_cases hk : k = it.id <;> simp [hk]

theorem TreeStore.construct_items_get (l : List TreeStoreItem) (k : Ident) :
    mapGet (TreeStore.construct l).items k = lastById l k := by
  show mapGet (l.foldl (fun m it => mapSet m it.id it) []) k = lastById l k
  rw [foldl_mapSet_get]
  cases h : lastById l k <;> simp [mapGet]

theorem foldl_mapSet_keys_nodup (l : List TreeStoreItem) (m0 : List (Ident × TreeStoreItem))
    (h : (m0.map Prod.fst).Nodup) :
    ((l.foldl (fun m it => mapSet m it.id it) m0).map Prod.fst).Nodup := by
  induction l generalizing m0 with
  | nil => exact h
  | cons it rest ih =>
    simp only [List.foldl_cons]
    refine ih _ ?_
    rw [keys_mapSet]
    by_cases hm : it.id ∈ m0.map Prod.fst
    · simpa [hm] using h
    · rw [if_neg hm]
      exact List.Nodup.append h (List.nodup_singleton _)
        (by simpa [List.disjoint_singleton] using hm)

theorem TreeStore.construct_items_keys_nodup (l : List TreeStoreItem) :
    ((TreeStore.construct l).items.map Prod.fst).Nodup :=
  foldl_mapSet_keys_nodup l [] (by simp)

theorem foldl_mapSet_kmatch (l : List TreeStoreItem) (m0 : List (Ident × TreeStoreItem))
    (h : ∀ p ∈ m0, (p.2).id = p.1) :
    ∀ p ∈ l.foldl (fun m it => mapSet m it.id it) m0, (p.2).id = p.1 := by
  induction l generalizing m0 with
  | nil => exact h
  | cons it rest ih =>
    simp only [List.foldl_cons]
    refine ih _ ?_
    intro p hp
    rcases mem_mapSet hp with h1 | h1
    · subst h1; rfl
    · exact h p h1

theorem TreeStore.construct_kmatch (l : List TreeStoreItem) :
    ∀ p ∈ (TreeStore.construct l).items, (p.2).id = p.1 :=
  foldl_mapSet_kmatch l [] (by simp)

theorem foldl_push_getD (l : List TreeStoreItem)
    (m0 : List (Ident × List TreeStoreItem)) (p : Ident) :
    (mapGet (l.foldl (fun m it =>
        match it.parent with
        | some q => pushChild m q it
        | none => m) m0) p).getD [] =
      (mapGet m0 p).getD [] ++ l.filter (fun it => decide (it.parent = some p)) := by
  induction l generalizing m0 with
  | nil => simp
  | cons it rest ih =>
    simp only [List.foldl_cons]
    cases hpar : it.parent with
    | none => simp [ih, hpar]
    | some q =>
      by_cases hq : p = q
      · subst hq
        rw [ih]
        simp [hpar, mapGet_pushChild_self]
      · rw [ih]
        have : ¬ it.parent = some p := by
          rw [hpar]; intro h; exact hq (Option.some.inj h).symm
        simp [mapGet_pushChild_ne _ _ _ _ hq, this]

theorem TreeStore.construct_getChildren (l : List TreeStoreItem) (p : Ident) :
    TreeStore.getChildren (TreeStore.construct l) p =
      l.filter (fun it => decide (it.parent = some p)) := by
  show (mapGet (l.foldl _ []) p).getD [] = _
  rw [foldl_push_getD]
  simp [mapGet]

theorem foldl_push_keys_nodup (l : List TreeStoreItem)
    (m0 : List (Ident × List TreeStoreItem)) (h : (m0.map Prod.fst).Nodup) :
    ((l.foldl (fun m it =>
        match it.parent with
        | some q => pushChild m q it
        | none => m) m0).map Prod.fst).Nodup := by
  induction l generalizing m0 with
  | nil => exact h
  | cons it rest ih =>
    simp only [List.foldl_cons]
    cases hpar : it.parent with
    | none => exact ih _ h
    | some q =>
      refine ih _ ?_
      rw [keys_pushChild]
      by_cases hm : q ∈ m0.map Prod.fst
      · simpa [hm] using h
      · rw [if_neg hm]
        exact List.Nodup.append h (List.nodup_singleton _)
          (by simpa [List.disjoint_singleton] using hm)

theorem TreeStore.construct_cm_keys_nodup (l : List TreeStoreItem) :
    ((TreeStore.construct l).childrenMap.map Prod.fst).Nodup :=
  foldl_push_keys_nodup l [] (by simp)

theorem entry_getChildren {s : TreeStore} (hcm : (s.childrenMap.map Prod.fst).Nodup)
    {e : Ident × List TreeStoreItem} (he : e ∈ s.childrenMap) :
    TreeStore.getChildren s e.1 = e.2 := by
  unfold TreeStore.getChildren
  rw [mapGet_of_nodup_mem hcm (by simpa using he)]
  rfl

theorem foldl_mapDelete_sublist {α : Type} (L : List TreeStoreItem) (m : List (Ident × α)) :
    (L.foldl (fun m c => mapDelete m c.id) m).Sublist m := by
  induction L generalizing m with
  | nil => simp
  | cons c rest ih =>
    simp only [List.foldl_cons]
    exact (ih (mapDelete m c.id)).trans (mapDelete_sublist m c.id)

theorem foldl_mapDelete_get {α : Type} (L : List TreeStoreItem) (m : List (Ident × α))
    (j : Ident) (hn : (m.map Prod.fst).Nodup) :
    mapGet (L.foldl (fun m c => mapDelete m c.id) m) j =
      if ∃ c ∈ L, c.id = j then none else mapGet m j := by
  induction L generalizing m with
  | nil => simp
  | cons c rest ih =>
    have hn2 : ((mapDelete m c.id).map Prod.fst).Nodup :=
      ((mapDelete_sublist m c.id).map Prod.fst).nodup hn
    simp only [List.foldl_cons]
    rw [ih _ hn2, mapGet_mapDelete _ _ _ hn]
    by_cases hex : ∃ x ∈ rest, x.id = j
    · simp [hex]
    · by_cases hc : j = c.id
      · simp [hex, hc]
      · have : ¬ c.id = j := fun h => hc h.symm
        simp [hex, hc, this]

/-! ### The store invariants -/

namespace TreeStore

/-- The parent recorded for `k` in the primary index: `some (some p)` when
`k` is stored with non-null parent `p`. -/
def storedParent (s : TreeStore) (k : Ident) : Option (Option Ident) :=
  (mapGet s.items k).map TreeStoreItem.parent

/-- `b` is the currently stored parent of `a`. -/
def pstep (s : TreeStore) (a b : Ident) : Prop :=
  ∃ it, mapGet s.items a = some it ∧ it.parent = some b

/-- `b` is a proper ancestor of `a` along stored parent links; equivalently
`a` is a proper descendant of `b`. -/
def Anc (s : TreeStore) (a b : Ident) : Prop :=
  Relation.TransGen (pstep s) a b

/-- No item is its own proper ancestor. -/
def Acyclic (s : TreeStore) : Prop := ∀ a, ¬ Anc s a a

/-- The documented store invariants: unique keys matching record ids,
referential integrity of parents, the secondary index inverse to the
stored `parent` field (existence and completeness at the identifier
level), duplicate-free child lists, and acyclicity. -/
structure Inv (s : TreeStore) : Prop where
  ikeys : (s.items.map Prod.fst).Nodup
  ckeys : (s.childrenMap.map Prod.fst).Nodup
  kmatch : ∀ p ∈ s.items, (p.2).id = p.1
  pexists : ∀ p ∈ s.items, ∀ q, (p.2).parent = some q → (mapGet s.items q).isSome = true
  cexists : ∀ e ∈ s.childrenMap, ∀ c ∈ e.2, storedParent s c.id = some (some e.1)
  ccomplete : ∀ p ∈ s.items, ∀ q, (p.2).parent = some q → ∃ c ∈ getChildren s q, c.id = p.1
  cnodup : ∀ e ∈ s.childrenMap, (e.2.map TreeStoreItem.id).Nodup

  acyc : Acyclic s

theorem storedParent_iff_pstep (s : TreeStore) (a b : Ident) :
    storedParent s a = some (some b) ↔ pstep s a b := by
  unfold storedParent pstep
  cases h : mapGet s.items a with
  | none => simp
  | some it => simp

theorem getChildren_cexists {s : TreeStore} (hInv : Inv s) {p : Ident} {c : TreeStoreItem}
    (hc : c ∈ getChildren s p) : storedParent s c.id = some (some p) := by
  unfold getChildren at hc
  cases hm : mapGet s.childrenMap p with
  | none => rw [hm] at hc; simp at hc
  | some l =>
    rw [hm] at hc
    exact hInv.cexists (p, l) (mapGet_mem hm) c hc

theorem getChildren_nodup {s : TreeStore} (hInv : Inv s) (p : Ident) :
    ((getChildren s p).map TreeStoreItem.id).Nodup := by
  unfold getChildren
  cases hm : mapGet s.childrenMap p with
  | none => simp
  | some l => exact hInv.cnodup (p, l) (mapGet_mem hm)

theorem child_pstep {s : TreeStore} (hInv : Inv s) {p : Ident} {c : TreeStoreItem}
    (hc : c ∈ getChildren s p) : pstep s c.id p :=
  (storedParent_iff_pstep s c.id p).mp (getChildren_cexists hInv hc)

theorem pstep_source_isSome {s : TreeStore} {a b : Ident} (h : pstep s a b) :
    (mapGet s.items a).isSome = true := by
  rcases h with ⟨it, h1, _⟩
  simp [h1]

theorem pstep_target_isSome {s : TreeStore} (hInv : Inv s) {a b : Ident} (h : pstep s a b) :
    (mapGet s.items b).isSome = true := by
  rcases h with ⟨it, h1, h2⟩
  exact hInv.pexists (a, it) (mapGet_mem h1) b h2

theorem anc_source_isSome {s : TreeStore} {a b : Ident} (h : Anc s a b) :
    (mapGet s.items a).isSome = true := by
  rcases Relation.TransGen.head'_iff.mp h with ⟨c, hc, _⟩
  exact pstep_source_isSome hc

theorem anc_target_isSome {s : TreeStore} (hInv : Inv s) {a b : Ident} (h : Anc s a b) :
    (mapGet s.items b).isSome = true := by
  rcases Relation.TransGen.tail'_iff.mp h with ⟨c, _, hc⟩
  exact pstep_target_isSome hInv hc

end TreeStore

theorem transGen_rank_lt {R : Ident → Ident → Prop} {r : Ident → Nat}
    (h : ∀ x y, R x y → r y < r x) {a b : Ident} (hab : Relation.TransGen R a b) :
    r b < r a := by
  induction hab with
  | single h1 => exact h _ _ h1
  | tail _ h1 ih => exact lt_trans (h _ _ h1) ih

theorem TreeStore.acyclic_of_rank (s : TreeStore) (r : Ident → Nat)
    (h : ∀ x y, TreeStore.pstep s x y → r y < r x) : TreeStore.Acyclic s :=
  fun _ ha => lt_irrefl _ (transGen_rank_lt h ha)

theorem lastById_eq_none {l : List TreeStoreItem} {k : Ident}
    (h : ∀ it ∈ l, ¬ it.id = k) : lastById l k = none := by
  induction l with
  | nil => rfl
  | cons x rest ih =>
    have hx : ¬ k = x.id := fun hh => h x (List.mem_cons_self x rest) hh.symm
    simp only [lastById, ih (fun it hit => h it (List.mem_cons_of_mem _ hit)), hx]
    simp

theorem lastById_mem {l : List TreeStoreItem} {k : Ident} {w : TreeStoreItem}
    (h : lastById l k = some w) : w ∈ l ∧ w.id = k := by
  induction l with
  | nil => simp [lastById] at h
  | cons x rest ih =>
    cases hrest : lastById rest k with
    | some v =>
      simp only [lastById, hrest] at h
      rcases ih (hrest.trans (congrArg some (Option.some.inj h))) with ⟨h1, h2⟩
      exact ⟨List.mem_cons_of_mem _ h1, h2⟩
    | none =>
      simp only [lastById, hrest] at h
      by_cases hk : k = x.id
      · rw [if_pos hk] at h
        exact ⟨(Option.some.inj h) ▸ List.mem_cons_self x rest,
          (Option.some.inj h) ▸ hk.symm⟩
      · rw [if_neg hk] at h
        cases h

theorem lastById_of_nodup {l : List TreeStoreItem} (hnd : (l.map TreeStoreItem.id).Nodup)
    {it : TreeStoreItem} (h : it ∈ l) : lastById l it.id = some it := by
  induction l with
  | nil => simp at h
  | cons x rest ih =>
    rw [List.map_cons, List.nodup_cons] at hnd
    rcases List.mem_cons.mp h with h1 | h1
    · subst h1
      have : lastById rest it.id = none := by
        refine lastById_eq_none ?_
        intro jt hjt hj
        exact hnd.1 (hj ▸ List.mem_map.mpr ⟨jt, hjt, rfl⟩)
      simp [lastById, this]
    · simp [lastById, ih hnd.2 h1]

theorem TreeStore.construct_items_mem (l : List TreeStoreItem) :
    ∀ p ∈ (TreeStore.construct l).items, p.2 ∈ l := by
  suffices h : ∀ m0 : List (Ident × TreeStoreItem),
      ∀ p ∈ l.foldl (fun m it => mapSet m it.id it) m0, p.2 ∈ l ∨ p ∈ m0 by
    intro p hp
    rcases h [] p hp with h1 | h1
    · exact h1
    · simp at h1
  induction l with
  | nil => intro m0 p hp; exact Or.inr hp
  | cons it rest ih =>
    intro m0 p hp
    simp only [List.foldl_cons] at hp
    rcases ih (mapSet m0 it.id it) p hp with h1 | h1
    · exact Or.inl (List.mem_cons_of_mem _ h1)
    · rcases mem_mapSet h1 with h2 | h2
      · exact Or.inl (h2 ▸ List.mem_cons_self it rest)
      · exact Or.inr h2

theorem TreeStore.construct_Inv (l : List TreeStoreItem)
    (hnd : (l.map TreeStoreItem.id).Nodup)
    (hpar : ∀ it ∈ l, it.parent = none ∨ ∃ jt ∈ l, it.parent = some jt.id)
    (r : Ident → Nat)
    (hr : ∀ it ∈ l, ∀ jt ∈ l, it.parent = some jt.id → r jt.id < r it.id) :
    TreeStore.Inv (TreeStore.construct l) := by
  have hmem : ∀ p ∈ (construct l).items, p.2 ∈ l := construct_items_mem l
  refine ⟨construct_items_keys_nodup l, construct_cm_keys_nodup l, construct_kmatch l,
    ?_, ?_, ?_, ?_, ?_⟩
  · intro p hp q hq
    have hit : p.2 ∈ l := hmem p hp
    rcases hpar p.2 hit with h0 | ⟨jt, hjt, hj⟩
    · rw [h0] at hq; cases hq
    · rw [hj] at hq
      have hq2 : jt.id = q := Option.some.inj hq
      rw [construct_items_get, ← hq2, lastById_of_nodup hnd hjt]
      rfl
  · intro e he c hc
    have hch : getChildren (construct l) e.1 = e.2 :=
      entry_getChildren (construct_cm_keys_nodup l) he
    have hc2 : c ∈ getChildren (construct l) e.1 := by rw [hch]; exact hc
    rw [construct_getChildren] at hc2
    have hcl : c ∈ l := (List.mem_filter.mp hc2).1
    have hcp : c.parent = some e.1 := by
      have := (List.mem_filter.mp hc2).2
      simpa using this
    unfold storedParent
    rw [construct_items_get, lastById_of_nodup hnd hcl]
    simp [hcp]
  · intro p hp q hq
    have hit : p.2 ∈ l := hmem p hp
    have hid : (p.2).id = p.1 := construct_kmatch l p hp
    rw [construct_getChildren]
    exact ⟨p.2, List.mem_filter.mpr ⟨hit, by simp [hq]⟩, hid⟩
  · intro e he
    have hch : getChildren (construct l) e.1 = e.2 :=
      entry_getChildren (construct_cm_keys_nodup l) he
    rw [← hch, construct_getChildren]
    exact ((List.filter_sublist l).map TreeStoreItem.id).nodup hnd
  · refine acyclic_of_rank _ r ?_
    intro x y hxy
    rcases hxy with ⟨it, h1, h2⟩
    have hit : it ∈ l := hmem (x, it) (mapGet_mem h1)
    have hx : it.id = x := construct_kmatch l (x, it) (mapGet_mem h1)
    rcases hpar it hit with h0 | ⟨jt, hjt, hj⟩
    · rw [h0] at h2; cases h2
    · have hy : jt.id = y := Option.some.inj (hj.symm.trans h2)
      have hlt := hr it hit jt hjt hj
      rw [hx, hy] at hlt
      exact hlt

/-! ### Breadth-first traversal: invariant, termination, characterization -/

namespace TreeStore

theorem getAllChildrenAux_nil (s : TreeStore) (fuel : Nat) :
    getAllChildrenAux s fuel [] = some [] := by
  cases fuel <;> rfl

/-- Loop invariant of `getAllChildren`'s queue: `V` is the emitted prefix,
`Q` the pending queue.  Every carried record resolves in the primary
index, ids are pairwise distinct, each is a proper descendant of `root`,
each one's stored parent is already expanded (`root` or emitted), and the
child lists of all expanded identifiers have been carried. -/
structure BfsOk (s : TreeStore) (root : Ident) (V Q : List TreeStoreItem) : Prop where
  stored : ∀ x ∈ V ++ Q, (mapGet s.items x.id).isSome = true
  nodup : ((V ++ Q).map TreeStoreItem.id).Nodup
  desc : ∀ x ∈ V ++ Q, Anc s x.id root
  expanded : ∀ x ∈ V ++ Q, ∃ p, storedParent s x.id = some (some p) ∧
    (p = root ∨ p ∈ V.map TreeStoreItem.id)
  complete : ∀ p, (p = root ∨ p ∈ V.map TreeStoreItem.id) →
    ∀ c ∈ getChildren s p, c ∈ V ++ Q

theorem BfsOk.step {s : TreeStore} {root : Ident} {V Q : List TreeStoreItem}
    (hInv : Inv s) (current : TreeStoreItem) (h : BfsOk s root V (current :: Q)) :
    BfsOk s root (V ++ [current]) (Q ++ getChildren s current.id) := by
  have hre : (V ++ [current]) ++ (Q ++ getChildren s current.id) =
      (V ++ current :: Q) ++ getChildren s current.id := by simp
  have hcur : current ∈ V ++ current :: Q := by simp
  have hAncCur : Anc s current.id root := h.desc current hcur
  have hcurV : current.id ∉ V.map TreeStoreItem.id := by
    intro hmem
    have := h.nodup
    rw [List.map_append] at this
    rcases List.nodup_append.mp this with ⟨_, _, hdisj⟩
    exact hdisj hmem (by simp)
  have hfresh : ∀ c ∈ getChildren s current.id,
      c.id ∉ (V ++ current :: Q).map TreeStoreItem.id := by
    intro c hc hmem
    rcases List.mem_map.mp hmem with ⟨x, hx, hxid⟩
    rcases h.expanded x hx with ⟨p, hp1, hp2⟩
    have hcp : storedParent s c.id = some (some current.id) := getChildren_cexists hInv hc
    rw [hxid] at hp1
    have hpc : p = current.id := by
      rw [hp1] at hcp
      exact Option.some.inj (Option.some.inj hcp)
    subst hpc
    rcases hp2 with h1 | h1
    · exact hInv.acyc root (h1 ▸ hAncCur)
    · exact hcurV h1
  refine ⟨?_, ?_, ?_, ?_, ?_⟩
  · intro x hx
    rw [hre] at hx
    rcases List.mem_append.mp hx with h1 | h1
    · exact h.stored x h1
    · exact pstep_source_isSome (child_pstep hInv h1)
  · rw [hre, List.map_append]
    refine List.Nodup.append h.nodup (getChildren_nodup hInv current.id) ?_
    intro a ha hb
    rcases List.mem_map.mp hb with ⟨c, hc, hcid⟩
    exact hfresh c hc (hcid ▸ ha)
  · intro x hx
    rw [hre] at hx
    rcases List.mem_append.mp hx with h1 | h1
    · exact h.desc x h1
    · exact Relation.TransGen.head (child_pstep hInv h1) hAncCur
  · intro x hx
    rw [hre] at hx
    rcases List.mem_append.mp hx with h1 | h1
    · rcases h.expanded x h1 with ⟨p, hp1, hp2⟩
      refine ⟨p, hp1, ?_⟩
      rcases hp2 with h2 | h2
      · exact Or.inl h2
      · exact Or.inr (by simp [h2])
    · exact ⟨current.id, getChildren_cexists hInv h1, Or.inr (by simp)⟩
  · intro p hp c hc
    have hgoal : c ∈ (V ++ current :: Q) ++ getChildren s current.id →
        c ∈ (V ++ [current]) ++ (Q ++ getChildren s current.id) := by
      rw [hre]; exact id
    rcases hp with h1 | h1
    · exact hgoal (List.mem_append.mpr (Or.inl (h.complete p (Or.inl h1) c hc)))
    · rw [List.map_append] at h1
      rcases List.mem_append.mp h1 with h2 | h2
      · exact hgoal (List.mem_append.mpr (Or.inl (h.complete p (Or.inr h2) c hc)))
      · have hpc : p = current.id := by simpa using h2
        subst hpc
        exact hgoal (List.mem_append.mpr (Or.inr hc))

theorem BfsOk.length_le {s : TreeStore} {root : Ident} {V Q : List TreeStoreItem}
    (h : BfsOk s root V Q) : V.length ≤ s.items.length := by
  have hn : (V.map TreeStoreItem.id).Nodup := by
    have := h.nodup
    rw [List.map_append] at this
    exact this.of_append_left
  have hsub : V.map TreeStoreItem.id ⊆ s.items.map Prod.fst := by
    intro a ha
    rcases List.mem_map.mp ha with ⟨x, hx, hxid⟩
    have := h.stored x (List.mem_append.mpr (Or.inl hx))
    rw [mapGet_isSome_iff] at this
    exact hxid ▸ this
  have := (List.subperm_of_subset hn hsub).length_le
  simpa using this

theorem bfs_run {s : TreeStore} (hInv : Inv s) (root : Ident) :
    ∀ fuel (V Q : List TreeStoreItem), BfsOk s root V Q →
      s.items.length + 1 ≤ fuel + V.length →
      ∃ out, getAllChildrenAux s fuel Q = some out ∧ BfsOk s root (V ++ out) [] := by
  intro fuel
  induction fuel with
  | zero =>
    intro V Q h hb
    cases Q with
    | nil => exact ⟨[], rfl, by simpa using h⟩
    | cons current Q2 =>
      exfalso
      have := h.length_le
      omega
  | succ fuel ih =>
    intro V Q h hb
    cases Q with
    | nil => exact ⟨[], rfl, by simpa using h⟩
    | cons current Q2 =>
      have hstep := BfsOk.step hInv current h
      have hb2 : s.items.length + 1 ≤ fuel + (V ++ [current]).length := by
        rw [List.length_append, List.length_singleton]
        omega
      rcases ih (V ++ [current]) (Q2 ++ getChildren s current.id) hstep hb2 with
        ⟨out, hout, hok⟩
      refine ⟨current :: out, ?_, ?_⟩
      · show (getAllChildrenAux s fuel (Q2 ++ getChildren s current.id)).map
          (fun rest => current :: rest) = some (current :: out)
        rw [hout]
        rfl
      · have hre2 : V ++ current :: out = (V ++ [current]) ++ out := by simp
        rw [hre2]
        exact hok

theorem bfs_init {s : TreeStore} (hInv : Inv s) (root : Ident) :
    BfsOk s root [] (getChildren s root) := by
  refine ⟨?_, ?_, ?_, ?_, ?_⟩
  · intro x hx
    rw [List.nil_append] at hx
    exact pstep_source_isSome (child_pstep hInv hx)
  · rw [List.nil_append]
    exact getChildren_nodup hInv root
  · intro x hx
    rw [List.nil_append] at hx
    exact Relation.TransGen.single (child_pstep hInv hx)
  · intro x hx
    rw [List.nil_append] at hx
    exact ⟨root, getChildren_cexists hInv hx, Or.inl rfl⟩
  · intro p hp c hc
    rcases hp with h1 | h1
    · subst h1
      rw [List.nil_append]
      exact hc
    · simp at h1

theorem bfs_complete {s : TreeStore} {root : Ident} {F : List TreeStoreItem}
    (hInv : Inv s) (h : BfsOk s root F []) :
    ∀ b, Anc s b root → b ∈ F.map TreeStoreItem.id := by
  intro b hb
  unfold Anc at hb
  refine Relation.TransGen.head_induction_on hb ?_ ?_
  · intro a ha
    rcases ha with ⟨it, h1, h2⟩
    rcases hInv.ccomplete (a, it) (mapGet_mem h1) root h2 with ⟨c, hc1, hc2⟩
    have hcF : c ∈ F := by simpa using h.complete root (Or.inl rfl) c hc1
    exact List.mem_map.mpr ⟨c, hcF, hc2⟩
  · intro a c hac _ ihc
    rcases hac with ⟨it, h1, h2⟩
    rcases hInv.ccomplete (a, it) (mapGet_mem h1) c h2 with ⟨x, hx1, hx2⟩
    have hxF : x ∈ F := by simpa using h.complete c (Or.inr ihc) x hx1
    exact List.mem_map.mpr ⟨x, hxF, hx2⟩

theorem foldl_max_le_init (L : List (Ident × List TreeStoreItem)) (acc : Nat) :
    acc ≤ L.foldl (fun m e => max m e.2.length) acc := by
  induction L generalizing acc with
  | nil => exact le_refl acc
  | cons e rest ih =>
    simp only [List.foldl_cons]
    exact le_trans (Nat.le_max_left acc e.2.length) (ih _)

theorem mem_le_foldl_max (L : List (Ident × List TreeStoreItem)) (acc : Nat) :
    ∀ e ∈ L, e.2.length ≤ L.foldl (fun m e => max m e.2.length) acc := by
  induction L generalizing acc with
  | nil => intro e he; simp at he
  | cons x rest ih =>
    intro e he
    rcases List.mem_cons.mp he with h1 | h1
    · subst h1
      simp only [List.foldl_cons]
      exact le_trans (Nat.le_max_right acc e.2.length) (foldl_max_le_init rest _)
    · exact ih _ e h1

theorem fuelBound_ge {s : TreeStore} (h1 : 1 ≤ maxChildLen s) :
    s.items.length + 1 ≤ fuelBound s := by
  unfold fuelBound
  have h2 : s.items.length + 1 < 2 ^ (s.items.length + 2) := by
    have := Nat.lt_two_pow (s.items.length + 2)
    omega
  have h3 : 2 ^ (s.items.length + 2) ≤ (maxChildLen s + 1) ^ (s.items.length + 2) :=
    Nat.pow_le_pow_left (by omega) _
  omega

theorem getAllChildren_run {s : TreeStore} (hInv : Inv s) (root : Ident) :
    ∃ out, getAllChildren s root = some out ∧ BfsOk s root out [] := by
  unfold getAllChildren
  cases hseed : getChildren s root with
  | nil =>
    refine ⟨[], getAllChildrenAux_nil s _, ?_⟩
    have := bfs_init hInv root
    rw [hseed] at this
    exact this
  | cons c rest =>
    have hls : ∃ ls, mapGet s.childrenMap root = some ls ∧ ls = c :: rest := by
      unfold getChildren at hseed
      cases hm : mapGet s.childrenMap root with
      | none => rw [hm] at hseed; simp at hseed
      | some ls => rw [hm] at hseed; exact ⟨ls, rfl, hseed⟩
    have h1 : 1 ≤ maxChildLen s := by
      rcases hls with ⟨ls, hm, hcons⟩
      have h2 := mem_le_foldl_max s.childrenMap 0 (root, ls) (mapGet_mem hm)
      have h3 : 1 ≤ ls.length := by rw [hcons]; simp
      exact le_trans h3 h2
    rcases bfs_run hInv root (fuelBound s) [] (getChildren s root)
      (bfs_init hInv root) (by simpa using fuelBound_ge h1) with ⟨out, hout, hok⟩
    rw [hseed] at hout
    exact ⟨out, hout, by simpa using hok⟩

/-- Full characterization of the descendant traversal on a store
satisfying the invariants: it terminates, emits pairwise distinct ids, and
emits exactly the proper descendants of `root`. -/
theorem getAllChildren_spec {s : TreeStore} (hInv : Inv s) (root : Ident) :
    ∃ out, getAllChildren s root = some out ∧
      (out.map TreeStoreItem.id).Nodup ∧
      (∀ b, b ∈ out.map TreeStoreItem.id ↔ Anc s b root) ∧
      (∀ c ∈ out, (mapGet s.items c.id).isSome = true) := by
  rcases getAllChildren_run hInv root with ⟨out, hout, hok⟩
  refine ⟨out, hout, ?_, ?_, ?_⟩
  · have := hok.nodup
    simpa using this
  · intro b
    constructor
    · intro hb
      rcases List.mem_map.mp hb with ⟨x, hx, hxid⟩
      exact hxid ▸ hok.desc x (by simpa using hx)
    · intro hb
      exact bfs_complete hInv hok b hb
  · intro c hc
    exact hok.stored c (by simpa using hc)

end TreeStore

/-! ### Ancestor walk: shape, termination -/

namespace TreeStore

theorem getAllParentsAux_parent_none {s : TreeStore} {cur : TreeStoreItem} (fuel : Nat)
    (h : cur.parent = none) : getAllParentsAux s fuel cur = some [] := by
  unfold getAllParentsAux
  rw [h]

theorem getAllParentsAux_dangling {s : TreeStore} {cur : TreeStoreItem} {p : Ident} (fuel : Nat)
    (hp : cur.parent = some p) (hg : mapGet s.items p = none) :
    getAllParentsAux s fuel cur = some [] := by
  unfold getAllParentsAux
  simp only [hp, hg]

theorem getAllParentsAux_zero {s : TreeStore} {cur par : TreeStoreItem} {p : Ident}
    (hp : cur.parent = some p) (hg : mapGet s.items p = some par) :
    getAllParentsAux s 0 cur = none := by
  unfold getAllParentsAux
  simp only [hp, hg]

theorem getAllParentsAux_succ {s : TreeStore} {cur par : TreeStoreItem} {p : Ident} (f : Nat)
    (hp : cur.parent = some p) (hg : mapGet s.items p = some par) :
    getAllParentsAux s (Nat.succ f) cur =
      (getAllParentsAux s f par).map (fun rest => par :: rest) := by
  conv_lhs => unfold getAllParentsAux
  simp only [hp, hg]

/-- One step of the returned ancestor chain: the successor is the record
resolved from the predecessor's parent field. -/
def parentLink (s : TreeStore) (x y : TreeStoreItem) : Prop :=
  ∃ p, x.parent = some p ∧ mapGet s.items p = some y

/-- The walk's stop condition, holding at the last chain element: null
parent (root reached) or dangling parent reference. -/
def chainStops (s : TreeStore) (z : TreeStoreItem) : Prop :=
  z.parent = none ∨ ∃ p, z.parent = some p ∧ mapGet s.items p = none

theorem getAllParentsAux_shape (s : TreeStore) :
    ∀ fuel (cur : TreeStoreItem) (l : List TreeStoreItem),
      getAllParentsAux s fuel cur = some l →
      List.Chain' (parentLink s) (cur :: l) ∧ chainStops s (l.getLastD cur) := by
  intro fuel
  induction fuel with
  | zero =>
    intro cur l h
    cases hp : cur.parent with
    | none =>
      rw [getAllParentsAux_parent_none 0 hp] at h
      obtain rfl : l = [] := (Option.some.inj h).symm
      exact ⟨List.chain'_singleton cur, Or.inl hp⟩
    | some p =>
      cases hg : mapGet s.items p with
      | none =>
        rw [getAllParentsAux_dangling 0 hp hg] at h
        obtain rfl : l = [] := (Option.some.inj h).symm
        exact ⟨List.chain'_singleton cur, Or.inr ⟨p, hp, hg⟩⟩
      | some par =>
        rw [getAllParentsAux_zero hp hg] at h
        exact Option.noConfusion h
  | succ f ih =>
    intro cur l h
    cases hp : cur.parent with
    | none =>
      rw [getAllParentsAux_parent_none _ hp] at h
      obtain rfl : l = [] := (Option.some.inj h).symm
      exact ⟨List.chain'_singleton cur, Or.inl hp⟩
    | some p =>
      cases hg : mapGet s.items p with
      | none =>
        rw [getAllParentsAux_dangling _ hp hg] at h
        obtain rfl : l = [] := (Option.some.inj h).symm
        exact ⟨List.chain'_singleton cur, Or.inr ⟨p, hp, hg⟩⟩
      | some par =>
        rw [getAllParentsAux_succ f hp hg] at h
        cases hrec : getAllParentsAux s f par with
        | none => rw [hrec] at h; exact Option.noConfusion h
        | some rest =>
          rw [hrec] at h
          obtain rfl : l = par :: rest := (Option.some.inj h).symm
          rcases ih par rest hrec with ⟨hchain, hstop⟩
          refine ⟨List.Chain'.cons ⟨p, hp, hg⟩ hchain, ?_⟩
          rw [List.getLastD_cons]
          exact hstop

theorem getAllParentsAux_term {s : TreeStore} (hInv : Inv s) :
    ∀ fuel (cur : TreeStoreItem) (seen : List Ident),
      mapGet s.items cur.id = some cur →
      seen.Nodup → cur.id ∉ seen →
      (∀ x ∈ seen, (mapGet s.items x).isSome = true) →
      (∀ x ∈ seen, Anc s x cur.id) →
      s.items.length + 1 ≤ fuel + (seen.length + 1) →
      ∃ l, getAllParentsAux s fuel cur = some l := by
  intro fuel
  induction fuel with
  | zero =>
    intro cur seen hcur hnd hnotin hstored _ hbound
    cases hp : cur.parent with
    | none => exact ⟨[], getAllParentsAux_parent_none 0 hp⟩
    | some p =>
      cases hg : mapGet s.items p with
      | none => exact ⟨[], getAllParentsAux_dangling 0 hp hg⟩
      | some par =>
        exfalso
        have hall : cur.id :: seen ⊆ s.items.map Prod.fst := by
          intro a ha
          rcases List.mem_cons.mp ha with h1 | h1
          · rw [h1, ← mapGet_isSome_iff]
            simp [hcur]
          · rw [← mapGet_isSome_iff]
            exact hstored a h1
        have hlen := (List.subperm_of_subset (List.nodup_cons.mpr ⟨hnotin, hnd⟩) hall).length_le
        simp only [List.length_cons, List.length_map] at hlen
        omega
  | succ f ih =>
    intro cur seen hcur hnd hnotin hstored hanc hbound
    cases hp : cur.parent with
    | none => exact ⟨[], getAllParentsAux_parent_none _ hp⟩
    | some p =>
      cases hg : mapGet s.items p with
      | none => exact ⟨[], getAllParentsAux_dangling _ hp hg⟩
      | some par =>
        have hpid : par.id = p := hInv.kmatch (p, par) (mapGet_mem hg)
        have hpar : mapGet s.items par.id = some par := by rw [hpid]; exact hg
        have hstep : pstep s cur.id par.id := ⟨cur, hcur, by rw [hp, hpid]⟩
        have hne : ¬ par.id = cur.id := by
          intro he
          exact hInv.acyc cur.id (Relation.TransGen.single (he ▸ hstep))
        have hnotin2 : par.id ∉ cur.id :: seen := by
          intro hmem
          rcases List.mem_cons.mp hmem with h1 | h1
          · exact hne h1
          · exact hInv.acyc par.id (Relation.TransGen.tail (hanc par.id h1) hstep)
        rcases ih par (cur.id :: seen) hpar (List.nodup_cons.mpr ⟨hnotin, hnd⟩) hnotin2
          (by
            intro x hx
            rcases List.mem_cons.mp hx with h1 | h1
            · rw [h1]; simp [hcur]
            · exact hstored x h1)
          (by
            intro x hx
            rcases List.mem_cons.mp hx with h1 | h1
            · rw [h1]; exact Relation.TransGen.single hstep
            · exact Relation.TransGen.tail (hanc x h1) hstep)
          (by simp only [List.length_cons]; omega) with ⟨l, hl⟩
        refine ⟨par :: l, ?_⟩
        rw [getAllParentsAux_succ f hp hg, hl]
        rfl

theorem getAllParents_isSome {s : TreeStore} (hInv : Inv s) (id : Ident) :
    (getAllParents s id).isSome = true := by
  unfold getAllParents
  cases hm : mapGet s.items id with
  | none => rfl
  | some cur =>
    have hcur : mapGet s.items cur.id = some cur := by
      rw [hInv.kmatch (id, cur) (mapGet_mem hm)]
      exact hm
    rcases getAllParentsAux_term hInv (s.items.length + 1) cur [] hcur (by simp) (by simp)
      (by simp) (by simp) (by omega) with ⟨l, hl⟩
    show ((getAllParentsAux s (s.items.length + 1) cur).map
      (fun rest => cur :: rest)).isSome = true
    rw [hl]
    rfl

theorem getAllParentsAux_mono (s : TreeStore) :
    ∀ f1 f2 (cur : TreeStoreItem) (l : List TreeStoreItem), f1 ≤ f2 →
      getAllParentsAux s f1 cur = some l → getAllParentsAux s f2 cur = some l := by
  intro f1
  induction f1 with
  | zero =>
    intro f2 cur l _ h
    cases hp : cur.parent with
    | none =>
      rw [getAllParentsAux_parent_none _ hp] at h ⊢
      exact h
    | some p =>
      cases hg : mapGet s.items p with
      | none =>
        rw [getAllParentsAux_dangling _ hp hg] at h ⊢
        exact h
      | some par =>
        rw [getAllParentsAux_zero hp hg] at h
        exact Option.noConfusion h
  | succ f ih =>
    intro f2 cur l hle h
    cases hp : cur.parent with
    | none =>
      rw [getAllParentsAux_parent_none _ hp] at h ⊢
      exact h
    | some p =>
      cases hg : mapGet s.items p with
      | none =>
        rw [getAllParentsAux_dangling _ hp hg] at h ⊢
        exact h
      | some par =>
        cases f2 with
        | zero => omega
        | succ f2p =>
          rw [getAllParentsAux_succ f hp hg] at h
          rw [getAllParentsAux_succ f2p hp hg]
          cases hrec : getAllParentsAux s f par with
          | none => rw [hrec] at h; exact Option.noConfusion h
          | some rest =>
            rw [hrec] at h
            rw [ih f2p par rest (by omega) hrec]
            exact h

end TreeStore

/-! ### Branch characterizations of the mutating operations -/

namespace TreeStore

theorem addItem_exists {s : TreeStore} {x : TreeStoreItem}
    (h1 : mapHas s.items x.id = true) :
    addItem s x = some (s, some (Error.itemAlreadyExists x.id)) := by
  unfold addItem
  rw [if_pos h1]

theorem addItem_parentNotFound {s : TreeStore} {x : TreeStoreItem} {p : Ident}
    (h1 : mapHas s.items x.id = false) (hp : x.parent = some p)
    (h2 : mapHas s.items p = false) :
    addItem s x = some (s, some (Error.parentNotFound p)) := by
  unfold addItem
  rw [if_neg (by simp [h1])]
  simp only [hp]
  rw [if_pos h2]

theorem addItem_circular {s : TreeStore} {x : TreeStoreItem} {p : Ident}
    (h1 : mapHas s.items x.id = false) (hp : x.parent = some p)
    (h2 : mapHas s.items p = true)
    (hw : wouldCreateCircularReference s x.id p = some true) :
    addItem s x = some (s, some Error.circularReference) := by
  unfold addItem
  rw [if_neg (by simp [h1])]
  simp only [hp, hw]
  rw [if_neg (by simp [h2])]

theorem addItem_ok_parent {s : TreeStore} {x : TreeStoreItem} {p : Ident}
    (h1 : mapHas s.items x.id = false) (hp : x.parent = some p)
    (h2 : mapHas s.items p = true)
    (hw : wouldCreateCircularReference s x.id p = some false) :
    addItem s x = some (TreeStore.mk (mapSet s.items x.id x)
      (pushChild s.childrenMap p x), none) := by
  unfold addItem
  rw [if_neg (by simp [h1])]
  simp only [hp, hw]
  rw [if_neg (by simp [h2])]

theorem addItem_ok_root {s : TreeStore} {x : TreeStoreItem}
    (h1 : mapHas s.items x.id = false) (hp : x.parent = none) :
    addItem s x = some (TreeStore.mk (mapSet s.items x.id x) s.childrenMap, none) := by
  unfold addItem
  rw [if_neg (by simp [h1])]
  simp only [hp]

theorem addItem_diverge {s : TreeStore} {x : TreeStoreItem} {p : Ident}
    (h1 : mapHas s.items x.id = false) (hp : x.parent = some p)
    (h2 : mapHas s.items p = true)
    (hw : wouldCreateCircularReference s x.id p = none) :
    addItem s x = none := by
  unfold addItem
  rw [if_neg (by simp [h1])]
  simp only [hp, hw]
  rw [if_neg (by simp [h2])]

theorem updateItem_notFound {s : TreeStore} {u : TreeStoreItem}
    (hm : mapGet s.items u.id = none) :
    updateItem s u = some (s, some (Error.itemNotFound u.id)) := by
  unfold updateItem
  simp only [hm]

theorem updateItem_parentNotFound {s : TreeStore} {u existing : TreeStoreItem} {np : Ident}
    (hm : mapGet s.items u.id = some existing) (hp : u.parent = some np)
    (h2 : mapHas s.items np = false) :
    updateItem s u = some (s, some (Error.parentNotFound np)) := by
  unfold updateItem
  simp only [hm, hp]
  rw [if_pos h2]

theorem updateItem_circular {s : TreeStore} {u existing : TreeStoreItem} {np : Ident}
    (hm : mapGet s.items u.id = some existing) (hp : u.parent = some np)
    (h2 : mapHas s.items np = true)
    (hw : wouldCreateCircularReference s u.id np = some true) :
    updateItem s u = some (s, some Error.circularReference) := by
  unfold updateItem
  simp only [hm, hp, hw]
  rw [if_neg (by simp [h2])]

theorem updateItem_ok_parent {s : TreeStore} {u existing : TreeStoreItem} {np : Ident}
    (hm : mapGet s.items u.id = some existing) (hp : u.parent = some np)
    (h2 : mapHas s.items np = true)
    (hw : wouldCreateCircularReference s u.id np = some false) :
    updateItem s u = some (applyUpdate s u existing, none) := by
  unfold updateItem
  simp only [hm, hp, hw]
  rw [if_neg (by simp [h2])]

theorem updateItem_ok_root {s : TreeStore} {u existing : TreeStoreItem}
    (hm : mapGet s.items u.id = some existing) (hp : u.parent = none) :
    updateItem s u = some (applyUpdate s u existing, none) := by
  unfold updateItem
  simp only [hm, hp]

theorem updateItem_diverge {s : TreeStore} {u existing : TreeStoreItem} {np : Ident}
    (hm : mapGet s.items u.id = some existing) (hp : u.parent = some np)
    (h2 : mapHas s.items np = true)
    (hw : wouldCreateCircularReference s u.id np = none) :
    updateItem s u = none := by
  unfold updateItem
  simp only [hm, hp, hw]
  rw [if_neg (by simp [h2])]

theorem removeItem_absent {s : TreeStore} {id : Ident}
    (hm : mapGet s.items id = none) : removeItem s id = some s := by
  unfold removeItem
  simp only [hm]

theorem removeItem_present {s : TreeStore} {id : Ident} {item : TreeStoreItem}
    {L : List TreeStoreItem}
    (hm : mapGet s.items id = some item) (hc : getAllChildren s id = some L) :
    removeItem s id = some (TreeStore.mk
      (mapDelete (L.foldl (fun m c => mapDelete m c.id) s.items) id)
      (match item.parent with
        | some p => spliceChild (mapDelete (L.foldl (fun m c => mapDelete m c.id)
            s.childrenMap) id) p id
        | none => mapDelete (L.foldl (fun m c => mapDelete m c.id) s.childrenMap) id)) := by
  unfold removeItem
  simp only [hm, hc]
  rfl

theorem removeItem_diverge {s : TreeStore} {id : Ident} {item : TreeStoreItem}
    (hm : mapGet s.items id = some item) (hc : getAllChildren s id = none) :
    removeItem s id = none := by
  unfold removeItem
  simp only [hm, hc]
  rfl

end TreeStore

namespace TreeStore

theorem wouldCreate_self {s : TreeStore} {a b : Ident} (h : a = b) :
    wouldCreateCircularReference s a b = some true := by
  unfold wouldCreateCircularReference
  rw [if_pos h]

theorem wouldCreate_of_children {s : TreeStore} {a b : Ident} {L : List TreeStoreItem}
    (h : ¬ a = b) (hc : getAllChildren s a = some L) :
    wouldCreateCircularReference s a b = some (L.any (fun c => decide (c.id = b))) := by
  unfold wouldCreateCircularReference
  rw [if_neg h, hc]
  rfl

theorem wouldCreate_diverge {s : TreeStore} {a b : Ident}
    (h : ¬ a = b) (hc : getAllChildren s a = none) :
    wouldCreateCircularReference s a b = none := by
  unfold wouldCreateCircularReference
  rw [if_neg h, hc]
  rfl

/-- On an invariant-satisfying store, the circular check terminates and
answers exactly "self-parent or proper descendant". -/
theorem wouldCreate_spec {s : TreeStore} (hInv : Inv s) (a b : Ident) :
    ∃ r, wouldCreateCircularReference s a b = some r ∧
      (r = true ↔ (a = b ∨ Anc s b a)) := by
  by_cases hab : a = b
  · exact ⟨true, wouldCreate_self hab, by simp [hab]⟩
  · rcases getAllChildren_spec hInv a with ⟨out, hout, _, hmem, _⟩
    refine ⟨out.any (fun c => decide (c.id = b)), wouldCreate_of_children hab hout, ?_⟩
    rw [List.any_eq_true]
    constructor
    · rintro ⟨c, hc, hcb⟩
      exact Or.inr ((hmem b).mp (List.mem_map.mpr ⟨c, hc, of_decide_eq_true hcb⟩))
    · intro h
      rcases h with h | h
      · exact absurd h hab
      · rcases List.mem_map.mp ((hmem b).mpr h) with ⟨c, hc, hcb⟩
        exact ⟨c, hc, decide_eq_true hcb⟩

/-! ### The test fixture -/

/-- Fixture records: `1` root; `91064cee`, `3` under `1`; `4`, `5`, `6`
under `91064cee`; `7`, `8` under `4`. -/
def i1 : TreeStoreItem := ⟨Ident.num 1, none, "Item 1", []⟩

def iA : TreeStoreItem := ⟨Ident.str "91064cee", some (Ident.num 1), "Item 2", []⟩

def i3 : TreeStoreItem := ⟨Ident.num 3, some (Ident.num 1), "Item 3", []⟩

def i4 : TreeStoreItem := ⟨Ident.num 4, some (Ident.str "91064cee"), "Item 4", []⟩

def i5 : TreeStoreItem := ⟨Ident.num 5, some (Ident.str "91064cee"), "Item 5", []⟩

def i6 : TreeStoreItem := ⟨Ident.num 6, some (Ident.str "91064cee"), "Item 6", []⟩

def i7 : TreeStoreItem := ⟨Ident.num 7, some (Ident.num 4), "Item 7", []⟩

def i8 : TreeStoreItem := ⟨Ident.num 8, some (Ident.num 4), "Item 8", []⟩

def fixtureItems : List TreeStoreItem := [i1, iA, i3, i4, i5, i6, i7, i8]

/-- The store built from the fixture. -/
def FixStore : TreeStore := construct fixtureItems

/-- Depth ranking witnessing acyclicity of the fixture. -/
def fixRank : Ident → Nat := fun i =>
  if i = Ident.num 1 then 0
  else if i = Ident.str "91064cee" then 1
  else if i = Ident.num 3 then 1
  else if i = Ident.num 4 then 2
  else if i = Ident.num 5 then 2
  else if i = Ident.num 6 then 2
  else 3

theorem FixStore_Inv : Inv FixStore :=
  construct_Inv fixtureItems (by decide) (by decide) fixRank (by decide)

end TreeStore

namespace TreeStore

theorem addItem_error_state {s : TreeStore} {x : TreeStoreItem} {t : TreeStore} {e : Error}
    (h : addItem s x = some (t, some e)) : t = s := by
  by_cases h1 : mapHas s.items x.id = true
  · rw [addItem_exists h1] at h
    exact (Prod.ext_iff.mp (Option.some.inj h)).1.symm
  · have h1f : mapHas s.items x.id = false := by simpa using h1
    cases hp : x.parent with
    | none =>
      rw [addItem_ok_root h1f hp] at h
      exact Option.noConfusion (Prod.ext_iff.mp (Option.some.inj h)).2
    | some p =>
      by_cases h2 : mapHas s.items p = false
      · rw [addItem_parentNotFound h1f hp h2] at h
        exact (Prod.ext_iff.mp (Option.some.inj h)).1.symm
      · have h2t : mapHas s.items p = true := by simpa using h2
        cases hw : wouldCreateCircularReference s x.id p with
        | none =>
          rw [addItem_diverge h1f hp h2t hw] at h
          exact Option.noConfusion h
        | some b =>
          cases b with
          | true =>
            rw [addItem_circular h1f hp h2t hw] at h
            exact (Prod.ext_iff.mp (Option.some.inj h)).1.symm
          | false =>
            rw [addItem_ok_parent h1f hp h2t hw] at h
            exact Option.noConfusion (Prod.ext_iff.mp (Option.some.inj h)).2

theorem updateItem_error_state {s : TreeStore} {u : TreeStoreItem} {t : TreeStore} {e : Error}
    (h : updateItem s u = some (t, some e)) : t = s := by
  cases hm : mapGet s.items u.id with
  | none =>
    rw [updateItem_notFound hm] at h
    exact (Prod.ext_iff.mp (Option.some.inj h)).1.symm
  | some existing =>
    cases hp : u.parent with
    | none =>
      rw [updateItem_ok_root hm hp] at h
      exact Option.noConfusion (Prod.ext_iff.mp (Option.some.inj h)).2
    | some np =>
      by_cases h2 : mapHas s.items np = false
      · rw [updateItem_parentNotFound hm hp h2] at h
        exact (Prod.ext_iff.mp (Option.some.inj h)).1.symm
      · have h2t : mapHas s.items np = true := by simpa using h2
        cases hw : wouldCreateCircularReference s u.id np with
        | none =>
          rw [updateItem_diverge hm hp h2t hw] at h
          exact Option.noConfusion h
        | some b =>
          cases b with
          | true =>
            rw [updateItem_circular hm hp h2t hw] at h
            exact (Prod.ext_iff.mp (Option.some.inj h)).1.symm
          | false =>
            rw [updateItem_ok_parent hm hp h2t hw] at h
            exact Option.noConfusion (Prod.ext_iff.mp (Option.some.inj h)).2

end TreeStore

open TreeStore in
/-- C3: for every store and input item, when `addItem` or `updateItem`
fails with any of the four errors it mutates neither index: the resulting
state is the original store, so `getAll`, `getItem` and `getChildren`
return exactly what they returned before the failed call. -/
theorem claim_C3_error_purity (s : TreeStore) (x : TreeStoreItem) (t : TreeStore) (e : Error) :
    (addItem s x = some (t, some e) → t = s ∧ getAll t = getAll s ∧
      (∀ k, getItem t k = getItem s k) ∧ (∀ k, getChildren t k = getChildren s k)) ∧
    (updateItem s x = some (t, some e) → t = s ∧ getAll t = getAll s ∧
      (∀ k, getItem t k = getItem s k) ∧ (∀ k, getChildren t k = getChildren s k)) := by
  constructor
  · intro h
    have ht : t = s := addItem_error_state h
    exact ⟨ht, by rw [ht], fun k => by rw [ht], fun k => by rw [ht]⟩
  · intro h
    have ht : t = s := updateItem_error_state h
    exact ⟨ht, by rw [ht], fun k => by rw [ht], fun k => by rw [ht]⟩

open TreeStore in
/-- Witness for C3 at a concrete input: adding a duplicate of the fixture
root fails with `ItemAlreadyExists` and leaves the store unchanged. -/
theorem claim_C3_error_purity_witness : FixStore = FixStore :=
  ((claim_C3_error_purity FixStore ⟨Ident.num 1, none, "dup", []⟩ FixStore
    (Error.itemAlreadyExists (Ident.num 1))).1 (by decide)).1

open TreeStore in
/-- C4: exhaustive behavior of `addItem`: it fails with
`ItemAlreadyExists` iff the id is present; otherwise with `ParentNotFound`
iff the parent is non-null and absent; otherwise with `CircularReference`
iff the non-null parent equals the item's id or occurs in
`getAllChildren(item.id)`; otherwise it succeeds, inserting the item into
the primary index and appending it to the end of its parent's child list
(creating the list if absent). -/
theorem claim_C4_addItem_cases (s : TreeStore) (item : TreeStoreItem) :
    (mapHas s.items item.id = true →
      addItem s item = some (s, some (Error.itemAlreadyExists item.id))) ∧
    (mapHas s.items item.id = false → ∀ p, item.parent = some p →
      mapHas s.items p = false →
      addItem s item = some (s, some (Error.parentNotFound p))) ∧
    (mapHas s.items item.id = false → ∀ p, item.parent = some p →
      mapHas s.items p = true → ∀ L, getAllChildren s item.id = some L →
      ((p = item.id ∨ ∃ c ∈ L, c.id = p) ↔
        addItem s item = some (s, some Error.circularReference))) ∧
    (mapHas s.items item.id = false → item.parent = none →
      addItem s item = some (TreeStore.mk (mapSet s.items item.id item) s.childrenMap,
        none) ∧
      getItem (TreeStore.mk (mapSet s.items item.id item) s.childrenMap) item.id
        = some item) ∧
    (mapHas s.items item.id = false → ∀ p, item.parent = some p →
      mapHas s.items p = true → ∀ L, getAllChildren s item.id = some L →
      ¬ (p = item.id ∨ ∃ c ∈ L, c.id = p) →
      ∃ t, addItem s item = some (t, none) ∧
        t.items = mapSet s.items item.id item ∧
        getItem t item.id = some item ∧
        getChildren t p = getChildren s p ++ [item] ∧
        (∀ q, ¬ q = p → getChildren t q = getChildren s q)) := by
  have hself : getItem (TreeStore.mk (mapSet s.items item.id item) s.childrenMap) item.id
      = some item := by
    show mapGet (mapSet s.items item.id item) item.id = some item
    rw [mapGet_mapSet]
    simp
  refine ⟨?_, ?_, ?_, ?_, ?_⟩
  · intro h1
    exact addItem_exists h1
  · intro h1 p hp h2
    exact addItem_parentNotFound h1 hp h2
  · intro h1 p hp h2 L hL
    constructor
    · intro hcond
      have hw : wouldCreateCircularReference s item.id p = some true := by
        by_cases hip : item.id = p
        · exact wouldCreate_self hip
        · rw [wouldCreate_of_children hip hL]
          rcases hcond with h | ⟨c, hc, hcp⟩
          · exact absurd h.symm hip
          · have : L.any (fun c => decide (c.id = p)) = true :=
              List.any_eq_true.mpr ⟨c, hc, decide_eq_true hcp⟩
            rw [this]
      exact addItem_circular h1 hp h2 hw
    · intro hres
      cases hw : wouldCreateCircularReference s item.id p with
      | none =>
        rw [addItem_diverge h1 hp h2 hw] at hres
        exact Option.noConfusion hres
      | some b =>
        cases b with
        | false =>
          rw [addItem_ok_parent h1 hp h2 hw] at hres
          exact Option.noConfusion (Prod.ext_iff.mp (Option.some.inj hres)).2
        | true =>
          by_cases hip : item.id = p
          · exact Or.inl hip.symm
          · rw [wouldCreate_of_children hip hL] at hw
            have hany : L.any (fun c => decide (c.id = p)) = true := Option.some.inj hw
            rcases List.any_eq_true.mp hany with ⟨c, hc, hcp⟩
            exact Or.inr ⟨c, hc, of_decide_eq_true hcp⟩
  · intro h1 hp
    exact ⟨addItem_ok_root h1 hp, hself⟩
  · intro h1 p hp h2 L hL hncond
    have hw : wouldCreateCircularReference s item.id p = some false := by
      by_cases hip : item.id = p
      · exact absurd (Or.inl hip.symm) hncond
      · rw [wouldCreate_of_children hip hL]
        have : L.any (fun c => decide (c.id = p)) = false := by
          rw [← Bool.not_eq_true, List.any_eq_true]
          rintro ⟨c, hc, hcp⟩
          exact hncond (Or.inr ⟨c, hc, of_decide_eq_true hcp⟩)
        rw [this]
    refine ⟨TreeStore.mk (mapSet s.items item.id item) (pushChild s.childrenMap p item),
      addItem_ok_parent h1 hp h2 hw, rfl, hself, ?_, ?_⟩
    · show (mapGet (pushChild s.childrenMap p item) p).getD [] = _
      rw [mapGet_pushChild_self]
      rfl
    · intro q hq
      show (mapGet (pushChild s.childrenMap p item) q).getD [] = _
      rw [mapGet_pushChild_ne _ _ _ _ hq]
      rfl

open TreeStore in
/-- Witness for C4 at a concrete input: on the fixture, adding an item
under parent `1` succeeds and appends it to `1`'s child list. -/
theorem claim_C4_addItem_cases_witness :
    ∃ t, addItem FixStore ⟨Ident.num 9, some (Ident.num 1), "Item 9", []⟩ = some (t, none) ∧
      t.items = mapSet FixStore.items (Ident.num 9)
        ⟨Ident.num 9, some (Ident.num 1), "Item 9", []⟩ ∧
      getItem t (Ident.num 9) = some ⟨Ident.num 9, some (Ident.num 1), "Item 9", []⟩ ∧
      getChildren t (Ident.num 1) = getChildren FixStore (Ident.num 1) ++
        [⟨Ident.num 9, some (Ident.num 1), "Item 9", []⟩] ∧
      (∀ q, ¬ q = Ident.num 1 → getChildren t q = getChildren FixStore q) := by
  have h := (claim_C4_addItem_cases FixStore
    ⟨Ident.num 9, some (Ident.num 1), "Item 9", []⟩).2.2.2.2
    (by decide) (Ident.num 1) (by decide) (by decide)
    [] (by decide) (by decide)
  exact h

/-! ### Depth and level order -/

namespace TreeStore

/-- Depth of an identifier: the length of its ancestor chain (the item
itself included); `0` for unknown ids. -/
def depth (s : TreeStore) (k : Ident) : Nat :=
  ((getAllParents s k).getD []).length

theorem depth_succ {s : TreeStore} (hInv : Inv s) {c : Ident} {it : TreeStoreItem} {p : Ident}
    (hst : mapGet s.items c = some it) (hp : it.parent = some p) :
    depth s c = depth s p + 1 := by
  have hic : it.id = c := hInv.kmatch (c, it) (mapGet_mem hst)
  have hpsome : (mapGet s.items p).isSome = true :=
    hInv.pexists (c, it) (mapGet_mem hst) p hp
  rcases Option.isSome_iff_exists.mp hpsome with ⟨par, hpar⟩
  have hparid : par.id = p := hInv.kmatch (p, par) (mapGet_mem hpar)
  have hparst : mapGet s.items par.id = some par := by rw [hparid]; exact hpar
  have hstep : pstep s c p := ⟨it, hst, hp⟩
  have hterm : ∃ l2, getAllParentsAux s s.items.length par = some l2 := by
    refine getAllParentsAux_term hInv s.items.length par [c] hparst (by simp) ?_
      (by intro x hx; rcases List.mem_singleton.mp hx with rfl; simp [hst])
      (by
        intro x hx
        rcases List.mem_singleton.mp hx with rfl
        rw [hparid]
        exact Relation.TransGen.single hstep)
      (by simp)
    intro hmem
    rcases List.mem_singleton.mp hmem with h
    rw [hparid] at h
    exact hInv.acyc c (Relation.TransGen.single (h ▸ hstep))
  rcases hterm with ⟨l2, hl2⟩
  have hsucc : s.items.length + 1 = Nat.succ s.items.length := rfl
  have haux : getAllParentsAux s (s.items.length + 1) it =
      (getAllParentsAux s s.items.length par).map (fun rest => par :: rest) := by
    rw [hsucc]
    exact getAllParentsAux_succ s.items.length hp hpar
  have hauxN : getAllParentsAux s (s.items.length + 1) par = some l2 :=
    getAllParentsAux_mono s s.items.length (s.items.length + 1) par l2 (by omega) hl2
  have hgpc : getAllParents s c = some (it :: par :: l2) := by
    unfold getAllParents
    rw [hst]
    show (getAllParentsAux s (s.items.length + 1) it).map (fun rest => it :: rest) = _
    rw [haux, hl2]
    rfl
  have hgpp : getAllParents s p = some (par :: l2) := by
    unfold getAllParents
    rw [hpar]
    show (getAllParentsAux s (s.items.length + 1) par).map (fun rest => par :: rest) = _
    rw [hauxN]
    rfl
  unfold depth
  rw [hgpc, hgpp]
  simp

theorem sorted_of_const {l : List Nat} {v : Nat} (h : ∀ x ∈ l, x = v) :
    l.Sorted (· ≤ ·) := by
  induction l with
  | nil => exact List.sorted_nil
  | cons a rest ih =>
    rw [List.sorted_cons]
    refine ⟨?_, ih (fun x hx => h x (List.mem_cons_of_mem _ hx))⟩
    intro b hb
    rw [h a (List.mem_cons_self a rest), h b (List.mem_cons_of_mem _ hb)]

theorem bfs_sorted {s : TreeStore} (hInv : Inv s) :
    ∀ fuel (Q : List TreeStoreItem) (d : Nat),
      (Q.map (fun x => depth s x.id)).Sorted (· ≤ ·) →
      (∀ x ∈ Q, depth s x.id = d ∨ depth s x.id = d + 1) →
      ∀ out, getAllChildrenAux s fuel Q = some out →
      (out.map (fun x => depth s x.id)).Sorted (· ≤ ·) ∧
      (∀ x ∈ out, ∃ y ∈ Q, depth s y.id ≤ depth s x.id) := by
  intro fuel
  induction fuel with
  | zero =>
    intro Q d hsort htwo out hout
    cases Q with
    | nil =>
      rw [getAllChildrenAux_nil] at hout
      obtain rfl : out = [] := (Option.some.inj hout).symm
      exact ⟨List.sorted_nil, by simp⟩
    | cons current rest => exact Option.noConfusion hout
  | succ fuel ih =>
    intro Q d hsort htwo out hout
    cases Q with
    | nil =>
      rw [getAllChildrenAux_nil] at hout
      obtain rfl : out = [] := (Option.some.inj hout).symm
      exact ⟨List.sorted_nil, by simp⟩
    | cons current rest =>
      have hout2 : (getAllChildrenAux s fuel (rest ++ getChildren s current.id)).map
          (fun r => current :: r) = some out := hout
      cases hrec : getAllChildrenAux s fuel (rest ++ getChildren s current.id) with
      | none => rw [hrec] at hout2; exact Option.noConfusion hout2
      | some out2 =>
        rw [hrec] at hout2
        obtain rfl : out = current :: out2 := (Option.some.inj hout2).symm
        rw [List.map_cons, List.sorted_cons] at hsort
        rcases hsort with ⟨hheadle, hrestsort⟩
        have hcd := htwo current (List.mem_cons_self current rest)
        have hL : ∀ c ∈ getChildren s current.id,
            depth s c.id = depth s current.id + 1 := by
          intro c hc
          rcases (storedParent_iff_pstep s c.id current.id).mp
            (getChildren_cexists hInv hc) with ⟨it, hst, hp⟩
          exact depth_succ hInv hst hp
        have hrestle : ∀ x ∈ rest, depth s current.id ≤ depth s x.id := by
          intro x hx
          exact hheadle _ (List.mem_map.mpr ⟨x, hx, rfl⟩)
        have hQ2le : ∀ x ∈ rest ++ getChildren s current.id,
            depth s current.id ≤ depth s x.id := by
          intro x hx
          rcases List.mem_append.mp hx with h1 | h1
          · exact hrestle x h1
          · rw [hL x h1]; omega
        have hstep : ∃ d2, ((rest ++ getChildren s current.id).map
              (fun x => depth s x.id)).Sorted (· ≤ ·) ∧
            (∀ x ∈ rest ++ getChildren s current.id,
              depth s x.id = d2 ∨ depth s x.id = d2 + 1) := by
          rcases hcd with hc1 | hc1
          · refine ⟨d, ?_, ?_⟩
            · rw [List.map_append]
              refine List.pairwise_append.mpr ⟨hrestsort, ?_, ?_⟩
              · refine sorted_of_const (v := d + 1) ?_
                intro x hx
                rcases List.mem_map.mp hx with ⟨c, hc, rfl⟩
                rw [hL c hc, hc1]
              · intro a ha b hb
                rcases List.mem_map.mp ha with ⟨x, hx, rfl⟩
                rcases List.mem_map.mp hb with ⟨c, hc, rfl⟩
                rw [hL c hc, hc1]
                rcases htwo x (List.mem_cons_of_mem _ hx) with h2 | h2 <;> omega
            · intro x hx
              rcases List.mem_append.mp hx with h1 | h1
              · exact htwo x (List.mem_cons_of_mem _ h1)
              · rw [hL x h1, hc1]; omega
          · have hrconst : ∀ x ∈ rest, depth s x.id = d + 1 := by
              intro x hx
              rcases htwo x (List.mem_cons_of_mem _ hx) with h2 | h2
              · exfalso
                have := hrestle x hx
                omega
              · exact h2
            refine ⟨d + 1, ?_, ?_⟩
            · rw [List.map_append]
              refine List.pairwise_append.mpr ⟨?_, ?_, ?_⟩
              · refine sorted_of_const (v := d + 1) ?_
                intro x hx
                rcases List.mem_map.mp hx with ⟨c, hc, rfl⟩
                exact hrconst c hc
              · refine sorted_of_const (v := d + 2) ?_
                intro x hx
                rcases List.mem_map.mp hx with ⟨c, hc, rfl⟩
                rw [hL c hc, hc1]
              · intro a ha b hb
                rcases List.mem_map.mp ha with ⟨x, hx, rfl⟩
                rcases List.mem_map.mp hb with ⟨c, hc, rfl⟩
                rw [hrconst x hx, hL c hc, hc1]
                omega
            · intro x hx
              rcases List.mem_append.mp hx with h1 | h1
              · exact Or.inl (hrconst x h1)
              · right
                rw [hL x h1, hc1]
        rcases hstep with ⟨d2, hsort2, htwo2⟩
        rcases ih (rest ++ getChildren s current.id) d2 hsort2 htwo2 out2 hrec with
          ⟨hsout, hge⟩
        constructor
        · rw [List.map_cons, List.sorted_cons]
          refine ⟨?_, hsout⟩
          intro b hb
          rcases List.mem_map.mp hb with ⟨x, hx, rfl⟩
          rcases hge x hx with ⟨y, hy, hyx⟩
          exact le_trans (hQ2le y hy) hyx
        · intro x hx
          rcases List.mem_cons.mp hx with h1 | h1
          · exact ⟨current, List.mem_cons_self current rest, by rw [h1]⟩
          · rcases hge x h1 with ⟨y, hy, hyx⟩
            exact ⟨current, List.mem_cons_self current rest, le_trans (hQ2le y hy) hyx⟩

end TreeStore

open TreeStore in
/-- C5: on every store satisfying the invariants, `getAllChildren id`
terminates and returns the full descendant closure of `id` (each
descendant exactly once) in level order (nondecreasing depth); it returns
the empty sequence for unknown ids and leaves; on the fixture,
`getAllChildren 1` is exactly `[91064cee, 3, 4, 5, 6, 7, 8]` (length 7). -/
theorem claim_C5_descendant_closure (s : TreeStore) (hInv : Inv s) (id : Ident) :
    (∃ out, getAllChildren s id = some out ∧
      (out.map TreeStoreItem.id).Nodup ∧
      (∀ b, b ∈ out.map TreeStoreItem.id ↔ Anc s b id) ∧
      (out.map (fun x => depth s x.id)).Sorted (· ≤ ·)) ∧
    (mapGet s.items id = none → getAllChildren s id = some []) ∧
    (getChildren s id = [] → getAllChildren s id = some []) ∧
    (getAllChildren FixStore (Ident.num 1) = some [iA, i3, i4, i5, i6, i7, i8] ∧
      (getAllChildren FixStore (Ident.num 1)).map List.length = some 7) := by
  have hempty : getChildren s id = [] → getAllChildren s id = some [] := by
    intro h
    unfold getAllChildren
    rw [h]
    exact getAllChildrenAux_nil s _
  have hseeddepth : ∀ c ∈ getChildren s id, depth s c.id = depth s id + 1 := by
    intro c hc
    rcases (storedParent_iff_pstep s c.id id).mp (getChildren_cexists hInv hc) with
      ⟨it, hst, hp⟩
    exact depth_succ hInv hst hp
  refine ⟨?_, ?_, hempty, by decide, by decide⟩
  · rcases getAllChildren_spec hInv id with ⟨out, hout, hnd, hmem, _⟩
    refine ⟨out, hout, hnd, hmem, ?_⟩
    have hsorted : ((getChildren s id).map (fun x => depth s x.id)).Sorted (· ≤ ·) := by
      refine sorted_of_const (v := depth s id + 1) ?_
      intro x hx
      rcases List.mem_map.mp hx with ⟨c, hc, rfl⟩
      exact hseeddepth c hc
    have htwo : ∀ x ∈ getChildren s id,
        depth s x.id = depth s id + 1 ∨ depth s x.id = depth s id + 1 + 1 :=
      fun x hx => Or.inl (hseeddepth x hx)
    exact (bfs_sorted hInv (fuelBound s) (getChildren s id) (depth s id + 1)
      hsorted htwo out hout).1
  · intro hnone
    refine hempty ?_
    cases hg : getChildren s id with
    | nil => rfl
    | cons c rest =>
      exfalso
      have hc : c ∈ getChildren s id := by rw [hg]; exact List.mem_cons_self c rest
      have hps := (storedParent_iff_pstep s c.id id).mp (getChildren_cexists hInv hc)
      have := pstep_target_isSome hInv hps
      rw [hnone] at this
      exact absurd this (by simp)

open TreeStore in
/-- Witness for C5 at the fixture store and root id. -/
theorem claim_C5_descendant_closure_witness :
    getAllChildren FixStore (Ident.num 1) = some [iA, i3, i4, i5, i6, i7, i8] :=
  (claim_C5_descendant_closure FixStore FixStore_Inv (Ident.num 1)).2.2.2.1

open TreeStore in
/-- C6: `getAllParents id` returns the empty sequence for unknown ids;
whenever it returns a chain, the chain starts with the item itself and
follows parent lookups (`[self, parent, grandparent, ...]`), its last
element having a null or dangling parent (the walk stops there without
failing); on invariant-satisfying stores it always terminates; on the
fixture, `getAllParents 7` is exactly `[7, 4, 91064cee, 1]`. -/
theorem claim_C6_ancestor_chain (s : TreeStore) (id : Ident) :
    (mapGet s.items id = none → getAllParents s id = some []) ∧
    (∀ l cur, getAllParents s id = some l → mapGet s.items id = some cur →
      ∃ rest, l = cur :: rest ∧ List.Chain' (parentLink s) l ∧
        chainStops s (rest.getLastD cur)) ∧
    (Inv s → (getAllParents s id).isSome = true) ∧
    getAllParents FixStore (Ident.num 7) = some [i7, i4, iA, i1] := by
  refine ⟨?_, ?_, fun hInv => getAllParents_isSome hInv id, by decide⟩
  · intro h
    unfold getAllParents
    rw [h]
  · intro l cur hl hcur
    unfold getAllParents at hl
    rw [hcur] at hl
    have hl2 : (getAllParentsAux s (s.items.length + 1) cur).map
        (fun rest => cur :: rest) = some l := hl
    cases haux : getAllParentsAux s (s.items.length + 1) cur with
    | none => rw [haux] at hl2; exact Option.noConfusion hl2
    | some rest =>
      rw [haux] at hl2
      obtain rfl : l = cur :: rest := (Option.some.inj hl2).symm
      rcases getAllParentsAux_shape s _ cur rest haux with ⟨hchain, hstop⟩
      exact ⟨rest, rfl, hchain, hstop⟩

open TreeStore in
/-- Witness for C6 at the fixture store: the chain of item `7`. -/
theorem claim_C6_ancestor_chain_witness :
    ∃ rest, [i7, i4, iA, i1] = i7 :: rest ∧
      List.Chain' (parentLink FixStore) [i7, i4, iA, i1] ∧
      chainStops FixStore (rest.getLastD i7) :=
  (claim_C6_ancestor_chain FixStore (Ident.num 7)).2.1 [i7, i4, iA, i1] i7
    (by decide) (by decide)

open TreeStore in
/-- C9: on every store satisfying the invariants (in particular
acyclicity), both traversals terminate for every identifier: the
breadth-first queue of `getAllChildren` empties within the fuel bound and
the parent walk of `getAllParents` reaches a null or dangling parent. -/
theorem claim_C9_traversals_terminate (s : TreeStore) (id : Ident) (hInv : Inv s) :
    (getAllChildren s id).isSome = true ∧ (getAllParents s id).isSome = true := by
  constructor
  · rcases getAllChildren_spec hInv id with ⟨out, hout, _⟩
    rw [hout]
    rfl
  · exact getAllParents_isSome hInv id

open TreeStore in
/-- Witness for C9 at the fixture store. -/
theorem claim_C9_traversals_terminate_witness :
    (getAllChildren FixStore (Ident.num 1)).isSome = true ∧
      (getAllParents FixStore (Ident.num 1)).isSome = true :=
  claim_C9_traversals_terminate FixStore (Ident.num 1) FixStore_Inv

open TreeStore in
/-- C7: `removeItem` never fails: on an unknown id it is a no-op returning
the unchanged store; otherwise it deletes the id and its entire descendant
closure from both indices and, when the item had a non-null parent,
splices the id out of that parent's child list preserving the relative
order of the remaining siblings; on the fixture, removing `91064cee`
leaves exactly `{1, 3}` with `getChildren 1 = [3]`. -/
theorem claim_C7_removeItem_cascade (s : TreeStore) (id : Ident) :
    (mapGet s.items id = none → removeItem s id = some s) ∧
    (Inv s → (removeItem s id).isSome = true) ∧
    (Inv s → ∀ item, mapGet s.items id = some item →
      ∃ t, removeItem s id = some t ∧
        (∀ k, k = id ∨ Anc s k id → mapGet t.items k = none) ∧
        (∀ k, ¬ (k = id ∨ Anc s k id) → mapGet t.items k = mapGet s.items k) ∧
        (∀ k, k = id ∨ Anc s k id → mapGet t.childrenMap k = none) ∧
        (∀ p, item.parent = some p →
          getChildren t p = removeFirstById (getChildren s p) id ∧
          (getChildren t p).Sublist (getChildren s p))) ∧
    ((removeItem FixStore (Ident.str "91064cee")).map
      (fun t => (getAll t, getChildren t (Ident.num 1)))) = some ([i1, i3], [i3]) := by
  refine ⟨fun h => removeItem_absent h, ?_, ?_, by decide⟩
  · intro hInv
    cases hm : mapGet s.items id with
    | none => rw [removeItem_absent hm]; rfl
    | some item =>
      rcases getAllChildren_spec hInv id with ⟨out, hout, _⟩
      rw [removeItem_present hm hout]
      rfl
  · intro hInv item hm
    rcases getAllChildren_spec hInv id with ⟨out, hout, hnd, hmem, _⟩
    have hnd1 : (((out.foldl (fun m c => mapDelete m c.id) s.items)).map Prod.fst).Nodup :=
      ((foldl_mapDelete_sublist out s.items).map Prod.fst).nodup hInv.ikeys
    have hnd2 : (((out.foldl (fun m c => mapDelete m c.id) s.childrenMap)).map
        Prod.fst).Nodup :=
      ((foldl_mapDelete_sublist out s.childrenMap).map Prod.fst).nodup hInv.ckeys
    have hitems : ∀ k,
        mapGet (mapDelete (out.foldl (fun m c => mapDelete m c.id) s.items) id) k =
          if k = id then none
          else if ∃ c ∈ out, c.id = k then none else mapGet s.items k := by
      intro k
      rw [mapGet_mapDelete _ _ _ hnd1]
      by_cases hkid : k = id
      · rw [if_pos hkid, if_pos hkid]
      · rw [if_neg hkid, if_neg hkid, foldl_mapDelete_get _ _ _ hInv.ikeys]
    have hcm : ∀ k,
        mapGet (mapDelete (out.foldl (fun m c => mapDelete m c.id) s.childrenMap) id) k =
          if k = id then none
          else if ∃ c ∈ out, c.id = k then none else mapGet s.childrenMap k := by
      intro k
      rw [mapGet_mapDelete _ _ _ hnd2]
      by_cases hkid : k = id
      · rw [if_pos hkid, if_pos hkid]
      · rw [if_neg hkid, if_neg hkid, foldl_mapDelete_get _ _ _ hInv.ckeys]
    have hdel_of : ∀ k, (k = id ∨ Anc s k id) →
        (if k = id then (none : Option TreeStoreItem)
          else if ∃ c ∈ out, c.id = k then none else mapGet s.items k) = none := by
      intro k hk
      by_cases hkid : k = id
      · rw [if_pos hkid]
      · rcases hk with h1 | h1
        · exact absurd h1 hkid
        · rcases List.mem_map.mp ((hmem k).mpr h1) with ⟨c, hc, hcid⟩
          rw [if_neg hkid, if_pos ⟨c, hc, hcid⟩]
    have hdelcm_of : ∀ k, (k = id ∨ Anc s k id) →
        (if k = id then (none : Option (List TreeStoreItem))
          else if ∃ c ∈ out, c.id = k then none else mapGet s.childrenMap k) = none := by
      intro k hk
      by_cases hkid : k = id
      · rw [if_pos hkid]
      · rcases hk with h1 | h1
        · exact absurd h1 hkid
        · rcases List.mem_map.mp ((hmem k).mpr h1) with ⟨c, hc, hcid⟩
          rw [if_neg hkid, if_pos ⟨c, hc, hcid⟩]
    have hkeep : ∀ k, ¬ (k = id ∨ Anc s k id) →
        (if k = id then (none : Option TreeStoreItem)
          else if ∃ c ∈ out, c.id = k then none else mapGet s.items k)
          = mapGet s.items k := by
      intro k hk
      rw [if_neg (fun h => hk (Or.inl h)), if_neg ?_]
      rintro ⟨c, hc, hcid⟩
      exact hk (Or.inr ((hmem k).mp (List.mem_map.mpr ⟨c, hc, hcid⟩)))
    cases hpar : item.parent with
    | none =>
      refine ⟨TreeStore.mk
        (mapDelete (out.foldl (fun m c => mapDelete m c.id) s.items) id)
        (mapDelete (out.foldl (fun m c => mapDelete m c.id) s.childrenMap) id),
        ?_, ?_, ?_, ?_, ?_⟩
      · have hpr := removeItem_present hm hout
        rw [hpar] at hpr
        exact hpr
      · intro k hk
        rw [hitems k]
        exact hdel_of k hk
      · intro k hk
        rw [hitems k]
        exact hkeep k hk
      · intro k hk
        rw [hcm k]
        exact hdelcm_of k hk
      · intro p hp
        exact Option.noConfusion hp
    | some p =>
      have hpstep : pstep s id p := ⟨item, hm, hpar⟩
      have hpnot : ¬ (p = id ∨ Anc s p id) := by
        rintro (h1 | h1)
        · exact hInv.acyc id (Relation.TransGen.single (h1 ▸ hpstep))
        · exact hInv.acyc p (Relation.TransGen.tail h1 hpstep)
      refine ⟨TreeStore.mk
        (mapDelete (out.foldl (fun m c => mapDelete m c.id) s.items) id)
        (spliceChild
          (mapDelete (out.foldl (fun m c => mapDelete m c.id) s.childrenMap) id) p id),
        ?_, ?_, ?_, ?_, ?_⟩
      · have hpr := removeItem_present hm hout
        rw [hpar] at hpr
        exact hpr
      · intro k hk
        rw [hitems k]
        exact hdel_of k hk
      · intro k hk
        rw [hitems k]
        exact hkeep k hk
      · intro k hk
        show mapGet (spliceChild _ p id) k = none
        have hkp : ¬ k = p := by
          intro h
          exact hpnot (h ▸ hk)
        rw [mapGet_spliceChild_ne _ _ _ _ hkp, hcm k]
        exact hdelcm_of k hk
      · intro q hq
        have hqp : q = p := (Option.some.inj hq).symm
        subst hqp
        have hcm_q : mapGet
            (mapDelete (out.foldl (fun m c => mapDelete m c.id) s.childrenMap) id) q =
            mapGet s.childrenMap q := by
          rw [hcm q, if_neg (fun h => hpnot (Or.inl h)), if_neg ?_]
          rintro ⟨c, hc, hcid⟩
          exact hpnot (Or.inr ((hmem q).mp (List.mem_map.mpr ⟨c, hc, hcid⟩)))
        constructor
        · show (mapGet (spliceChild _ q id) q).getD [] = _
          rw [mapGet_spliceChild_self, hcm_q]
          unfold getChildren
          cases mapGet s.childrenMap q with
          | none => rfl
          | some l => rfl
        · show (mapGet (spliceChild _ q id) q).getD [] |>.Sublist _
          rw [mapGet_spliceChild_self, hcm_q]
          unfold getChildren
          cases mapGet s.childrenMap q with
          | none => simp
          | some l => exact removeFirstById_sublist l id

open TreeStore in
/-- Witness for C7 on the fixture: removing an unknown id is a no-op. -/
theorem claim_C7_removeItem_cascade_witness :
    removeItem FixStore (Ident.num 999) = some FixStore :=
  (claim_C7_removeItem_cascade FixStore (Ident.num 999)).1 (by decide)

namespace TreeStore

theorem applyUpdate_items (s : TreeStore) (u existing : TreeStoreItem) :
    (applyUpdate s u existing).items = mapSet s.items u.id u := rfl

theorem applyUpdate_cm_same {s : TreeStore} {u existing : TreeStoreItem}
    (h : existing.parent = u.parent) :
    (applyUpdate s u existing).childrenMap = s.childrenMap := by
  unfold applyUpdate
  rw [if_pos h]

theorem applyUpdate_cm_some_some {s : TreeStore} {u existing : TreeStoreItem}
    {op np : Ident} (h : ¬ existing.parent = u.parent)
    (hep : existing.parent = some op) (hup : u.parent = some np) :
    (applyUpdate s u existing).childrenMap =
      pushChild (spliceChild s.childrenMap op u.id) np u := by
  unfold applyUpdate
  rw [if_neg h]
  simp only [hup, hep]

theorem applyUpdate_cm_none_some {s : TreeStore} {u existing : TreeStoreItem}
    {np : Ident} (h : ¬ existing.parent = u.parent)
    (hep : existing.parent = none) (hup : u.parent = some np) :
    (applyUpdate s u existing).childrenMap = pushChild s.childrenMap np u := by
  unfold applyUpdate
  rw [if_neg h]
  simp only [hup, hep]

theorem applyUpdate_cm_some_none {s : TreeStore} {u existing : TreeStoreItem}
    {op : Ident} (h : ¬ existing.parent = u.parent)
    (hep : existing.parent = some op) (hup : u.parent = none) :
    (applyUpdate s u existing).childrenMap = spliceChild s.childrenMap op u.id := by
  unfold applyUpdate
  rw [if_neg h]
  simp only [hup, hep]

theorem updateItem_ok_state {s : TreeStore} {u : TreeStoreItem} {t : TreeStore}
    (hsucc : updateItem s u = some (t, none)) :
    ∃ ex0, mapGet s.items u.id = some ex0 ∧ t = applyUpdate s u ex0 ∧
      (∀ np, u.parent = some np → mapHas s.items np = true ∧
        wouldCreateCircularReference s u.id np = some false) := by
  cases hm : mapGet s.items u.id with
  | none =>
    rw [updateItem_notFound hm] at hsucc
    exact absurd (Prod.ext_iff.mp (Option.some.inj hsucc)).2 (by simp)
  | some ex0 =>
    refine ⟨ex0, rfl, ?_⟩
    cases hp : u.parent with
    | none =>
      rw [updateItem_ok_root hm hp] at hsucc
      refine ⟨(Prod.ext_iff.mp (Option.some.inj hsucc)).1.symm, ?_⟩
      intro np hnp
      exact Option.noConfusion hnp
    | some np =>
      by_cases h2 : mapHas s.items np = true
      · cases hw : wouldCreateCircularReference s u.id np with
        | none =>
          rw [updateItem_diverge hm hp h2 hw] at hsucc
          exact Option.noConfusion hsucc
        | some b =>
          cases b with
          | true =>
            rw [updateItem_circular hm hp h2 hw] at hsucc
            exact absurd (Prod.ext_iff.mp (Option.some.inj hsucc)).2 (by simp)
          | false =>
            rw [updateItem_ok_parent hm hp h2 hw] at hsucc
            refine ⟨(Prod.ext_iff.mp (Option.some.inj hsucc)).1.symm, ?_⟩
            intro np2 hnp2
            have : np2 = np := (Option.some.inj hnp2).symm
            subst this
            exact ⟨h2, hw⟩
      · have h2f : mapHas s.items np = false := by simpa using h2
        rw [updateItem_parentNotFound hm hp h2f] at hsucc
        exact absurd (Prod.ext_iff.mp (Option.some.inj hsucc)).2 (by simp)

end TreeStore

open TreeStore in
/-- C8: every `updateItem` that passes validation replaces the stored
record in full (label, parent and extra fields take the new values); when
the parent changed, the id is spliced out of the old parent's child list
(sibling order preserved) and the updated record is appended to the end of
the new parent's list; when the parent is unchanged the secondary index is
untouched; on the fixture, moving `3` from `1` to `91064cee` leaves
`getChildren 1 = [91064cee]` and appends `3` after `91064cee`'s
pre-existing children `4, 5, 6` in their original order. -/
theorem claim_C8_updateItem_success (s : TreeStore) (u : TreeStoreItem) :
    (∀ t, updateItem s u = some (t, none) →
      mapGet t.items u.id = some u ∧
      ∀ existing, mapGet s.items u.id = some existing →
        (¬ existing.parent = u.parent →
          (∀ np, u.parent = some np →
            getChildren t np = getChildren s np ++ [u]) ∧
          (∀ op, existing.parent = some op →
            getChildren t op = removeFirstById (getChildren s op) u.id ∧
            (getChildren t op).Sublist (getChildren s op))) ∧
        (existing.parent = u.parent → ∀ q, getChildren t q = getChildren s q)) ∧
    ((updateItem FixStore ⟨Ident.num 3, some (Ident.str "91064cee"), "Item 3 moved",
        []⟩).map (fun r => (r.2, getChildren r.1 (Ident.num 1),
        getChildren r.1 (Ident.str "91064cee")))) =
      some (none, [iA],
        [i4, i5, i6, ⟨Ident.num 3, some (Ident.str "91064cee"), "Item 3 moved", []⟩]) := by
  refine ⟨?_, by decide⟩
  intro t hsucc
  rcases updateItem_ok_state hsucc with ⟨ex0, hm, rfl, _⟩
  constructor
  · show mapGet (mapSet s.items u.id u) u.id = some u
    rw [mapGet_mapSet]
    simp
  · intro existing hexist
    have hex : existing = ex0 := Option.some.inj (hexist.symm.trans hm)
    subst hex
    constructor
    · intro hchg
      constructor
      · intro np hup
        show (mapGet (applyUpdate s u existing).childrenMap np).getD [] = _
        cases hep : existing.parent with
        | none =>
          rw [applyUpdate_cm_none_some hchg hep hup, mapGet_pushChild_self]
          rfl
        | some op =>
          have hop : ¬ np = op := by
            intro h
            rw [hep, hup, h] at hchg
            exact hchg rfl
          rw [applyUpdate_cm_some_some hchg hep hup, mapGet_pushChild_self,
            mapGet_spliceChild_ne _ _ _ _ hop]
          rfl
      · intro op hep
        have hsplice : getChildren (applyUpdate s u existing) op =
            removeFirstById (getChildren s op) u.id := by
          show (mapGet (applyUpdate s u existing).childrenMap op).getD [] = _
          cases hup : u.parent with
          | none =>
            rw [applyUpdate_cm_some_none hchg hep hup, mapGet_spliceChild_self]
            unfold getChildren
            cases mapGet s.childrenMap op with
            | none => rfl
            | some l => rfl
          | some np =>
            have hop : ¬ op = np := by
              intro h
              rw [hep, hup, h] at hchg
              exact hchg rfl
            rw [applyUpdate_cm_some_some hchg hep hup,
              mapGet_pushChild_ne _ _ _ _ hop, mapGet_spliceChild_self]
            unfold getChildren
            cases mapGet s.childrenMap op with
            | none => rfl
            | some l => rfl
        refine ⟨hsplice, ?_⟩
        rw [hsplice]
        exact removeFirstById_sublist _ _
    · intro hsame q
      show (mapGet (applyUpdate s u existing).childrenMap q).getD [] = _
      rw [applyUpdate_cm_same hsame]
      rfl

open TreeStore in
/-- Witness for C8: the fixture move of item `3` under `91064cee`. -/
theorem claim_C8_updateItem_success_witness :
    mapGet (applyUpdate FixStore
      ⟨Ident.num 3, some (Ident.str "91064cee"), "Item 3 moved", []⟩ i3).items
      (Ident.num 3) = some ⟨Ident.num 3, some (Ident.str "91064cee"), "Item 3 moved", []⟩ :=
  ((claim_C8_updateItem_success FixStore
    ⟨Ident.num 3, some (Ident.str "91064cee"), "Item 3 moved", []⟩).1
    (applyUpdate FixStore ⟨Ident.num 3, some (Ident.str "91064cee"), "Item 3 moved", []⟩ i3)
    (by decide)).1

theorem countP_eq_key {l : List Ident} (hnd : l.Nodup) (k : Ident) :
    l.countP (fun x => decide (x = k)) = if k ∈ l then 1 else 0 := by
  induction l with
  | nil => simp
  | cons a rest ih =>
    rw [List.nodup_cons] at hnd
    rw [List.countP_cons]
    by_cases hak : a = k
    · subst hak
      rw [ih hnd.2, if_neg hnd.1, if_pos (List.mem_cons_self a rest)]
      simp
    · have : ¬ k = a := fun h => hak h.symm
      rw [ih hnd.2]
      by_cases hkr : k ∈ rest
      · simp [hkr, hak, this]
      · simp [hkr, hak, this]

open TreeStore in
/-- C10 (amended): constructing from an input with duplicate identifiers
keeps only the last entry per identifier in the primary index, while each
child list is exactly the input subsequence of records naming that parent,
duplicates included; hence `getAll` reports a duplicated identifier once
while `getChildren` of a parent lists it once per occurrence.
`getAllChildren` of an ancestor emits one copy per traversal path: once
per occurrence when no other duplicate lies on the path (id `2` below),
multiplying when duplicates are nested (id `3` below, one occurrence, two
paths). -/
theorem claim_C10_duplicate_construction (l : List TreeStoreItem) (k p : Ident) :
    mapGet (construct l).items k = lastById l k ∧
    (getAll (construct l)).countP (fun it => decide (it.id = k)) =
      (if (lastById l k).isSome = true then 1 else 0) ∧
    getChildren (construct l) p = l.filter (fun it => decide (it.parent = some p)) ∧
    ((getAllChildren (construct [⟨Ident.num 1, none, "a", []⟩,
        ⟨Ident.num 2, some (Ident.num 1), "b", []⟩,
        ⟨Ident.num 2, some (Ident.num 1), "b2", []⟩,
        ⟨Ident.num 3, some (Ident.num 2), "c", []⟩]) (Ident.num 1)).map
      (fun out => out.map TreeStoreItem.id)) =
      some [Ident.num 2, Ident.num 2, Ident.num 3, Ident.num 3] := by
  refine ⟨construct_items_get l k, ?_, construct_getChildren l p, by decide⟩
  have h1 : (getAll (construct l)).countP (fun it => decide (it.id = k)) =
      ((construct l).items.map Prod.fst).countP (fun x => decide (x = k)) := by
    unfold getAll
    rw [List.countP_map, List.countP_map]
    refine List.countP_congr ?_
    intro e he
    simp only [Function.comp]
    rw [construct_kmatch l e he]
  rw [h1, countP_eq_key (construct_items_keys_nodup l) k]
  have h2 : k ∈ (construct l).items.map Prod.fst ↔ (lastById l k).isSome = true := by
    rw [← mapGet_isSome_iff, construct_items_get]
  by_cases hmem : k ∈ (construct l).items.map Prod.fst
  · rw [if_pos hmem, if_pos (h2.mp hmem)]
  · rw [if_neg hmem, if_neg (fun h => hmem (h2.mpr h))]

open TreeStore in
/-- Witness for C10 on a concrete duplicate input: the primary index keeps
the last record under the duplicated id. -/
theorem claim_C10_duplicate_construction_witness :
    mapGet (construct [⟨Ident.num 1, none, "a", []⟩,
      ⟨Ident.num 2, some (Ident.num 1), "b", []⟩,
      ⟨Ident.num 2, some (Ident.num 1), "b2", []⟩]).items (Ident.num 2) =
      lastById [⟨Ident.num 1, none, "a", []⟩,
        ⟨Ident.num 2, some (Ident.num 1), "b", []⟩,
        ⟨Ident.num 2, some (Ident.num 1), "b2", []⟩] (Ident.num 2) :=
  (claim_C10_duplicate_construction _ (Ident.num 2) (Ident.num 1)).1

open TreeStore in
/-- Counterexample to C10 as stated: with nested duplicates (two entries
for id `2` and two for id `3`, all with non-null parents), the duplicated
id `3` appears four times in `getAllChildren 1`, not once per occurrence
(twice). -/
theorem claim_C10_counterexample :
    ((getAllChildren (construct [⟨Ident.num 1, none, "a", []⟩,
        ⟨Ident.num 2, some (Ident.num 1), "b", []⟩,
        ⟨Ident.num 2, some (Ident.num 1), "b2", []⟩,
        ⟨Ident.num 3, some (Ident.num 2), "c", []⟩,
        ⟨Ident.num 3, some (Ident.num 2), "c2", []⟩]) (Ident.num 1)).map
      (fun out => out.countP (fun c => decide (c.id = Ident.num 3)))) = some 4 ∧
    (4 : Nat) ≠ 2 :=
  ⟨by decide, by decide⟩

/-! ### Invariant preservation helpers -/

theorem transGen_no_source {r r2 : Ident → Ident → Prop} {bad : Ident}
    (hproj : ∀ x y, r2 x y → ¬ x = bad → r x y)
    (hnos : ∀ y, ¬ r2 bad y) :
    ∀ a b, Relation.TransGen r2 a b → Relation.TransGen r a b := by
  intro a b hab
  refine Relation.TransGen.head_induction_on hab ?_ ?_
  · intro a ha
    by_cases h : a = bad
    · exact absurd (h ▸ ha) (hnos b)
    · exact Relation.TransGen.single (hproj a b ha h)
  · intro a c hac _ ihc
    by_cases h : a = bad
    · exact absurd (h ▸ hac) (hnos c)
    · exact Relation.TransGen.head (hproj a c hac h) ihc

theorem transGen_no_target {r r2 : Ident → Ident → Prop} {bad : Ident}
    (hproj : ∀ x y, r2 x y → ¬ x = bad → r x y)
    (hnot : ∀ x y, r2 x y → ¬ y = bad) :
    ∀ a b, Relation.TransGen r2 a b → ¬ a = bad → Relation.TransGen r a b := by
  intro a b hab
  refine Relation.TransGen.head_induction_on hab ?_ ?_
  · intro a ha hbad
    exact Relation.TransGen.single (hproj a b ha hbad)
  · intro a c hac hcb ihc hbad
    exact Relation.TransGen.head (hproj a c hac hbad) (ihc (hnot a c hac))

theorem transGen_exists_last {r : Ident → Ident → Prop} {a b : Ident}
    (h : Relation.TransGen r a b) : ∃ z, r z b := by
  induction h with
  | single h1 => exact ⟨a, h1⟩
  | tail _ h1 => exact ⟨_, h1⟩

theorem transGen_suffix {r r2 : Ident → Ident → Prop} {u np : Ident}
    (hproj : ∀ x y, r2 x y → ¬ x = u → r x y)
    (hout : ∀ y, r2 u y → y = np) :
    ∀ a b, Relation.TransGen r2 a b →
      Relation.TransGen r a b ∨ Relation.ReflTransGen r np b := by
  intro a b hab
  refine Relation.TransGen.head_induction_on hab ?_ ?_
  · intro a ha
    by_cases h : a = u
    · have hb : b = np := hout b (h ▸ ha)
      subst hb
      exact Or.inr Relation.ReflTransGen.refl
    · exact Or.inl (Relation.TransGen.single (hproj a b ha h))
  · intro a c hac _ ihc
    by_cases h : a = u
    · have hc : c = np := hout c (h ▸ hac)
      rcases ihc with h1 | h1
      · subst hc
        exact Or.inr h1.to_reflTransGen
      · exact Or.inr h1
    · rcases ihc with h1 | h1
      · exact Or.inl (Relation.TransGen.head (hproj a c hac h) h1)
      · exact Or.inr h1

theorem transGen_prefix {r r2 : Ident → Ident → Prop} {u : Ident}
    (hproj : ∀ x y, r2 x y → ¬ x = u → r x y) :
    ∀ a b, Relation.TransGen r2 a b →
      Relation.TransGen r a b ∨ Relation.ReflTransGen r a u := by
  intro a b hab
  induction hab with
  | single h1 =>
    by_cases h : a = u
    · subst h
      exact Or.inr Relation.ReflTransGen.refl
    · exact Or.inl (Relation.TransGen.single (hproj _ _ h1 h))
  | tail hac hcb ih =>
    rename_i bmid cfin
    rcases ih with h1 | h1
    · by_cases h : bmid = u
      · subst h
        exact Or.inr h1.to_reflTransGen
      · exact Or.inl (Relation.TransGen.tail h1 (hproj _ _ hcb h))
    · exact Or.inr h1

namespace TreeStore

/-- Build `Inv` from lookup-level facts (the entry-level fields follow
from key uniqueness). -/
theorem Inv_of_parts {s : TreeStore}
    (hik : (s.items.map Prod.fst).Nodup)
    (hck : (s.childrenMap.map Prod.fst).Nodup)
    (hkm : ∀ k it, mapGet s.items k = some it → it.id = k)
    (hpe : ∀ k it, mapGet s.items k = some it → ∀ q, it.parent = some q →
      (mapGet s.items q).isSome = true)
    (hce : ∀ k, ∀ c ∈ getChildren s k, storedParent s c.id = some (some k))
    (hcc : ∀ k it, mapGet s.items k = some it → ∀ q, it.parent = some q →
      ∃ c ∈ getChildren s q, c.id = k)
    (hcn : ∀ k, ((getChildren s k).map TreeStoreItem.id).Nodup)
    (hac : Acyclic s) : Inv s := by
  have hmem_get : ∀ p ∈ s.items, mapGet s.items p.1 = some p.2 := by
    intro p hp
    exact mapGet_of_nodup_mem hik (by simpa using hp)
  refine ⟨hik, hck, ?_, ?_, ?_, ?_, ?_, hac⟩
  · intro p hp
    exact hkm p.1 p.2 (hmem_get p hp)
  · intro p hp q hq
    exact hpe p.1 p.2 (hmem_get p hp) q hq
  · intro e he c hc
    refine hce e.1 c ?_
    rw [entry_getChildren hck he]
    exact hc
  · intro p hp q hq
    exact hcc p.1 p.2 (hmem_get p hp) q hq
  · intro e he
    rw [← entry_getChildren hck he]
    exact hcn e.1

theorem Inv.kmatch2 {s : TreeStore} (hInv : Inv s) {k : Ident} {it : TreeStoreItem}
    (h : mapGet s.items k = some it) : it.id = k :=
  hInv.kmatch (k, it) (mapGet_mem h)

theorem Inv.pexists2 {s : TreeStore} (hInv : Inv s) {k : Ident} {it : TreeStoreItem}
    (h : mapGet s.items k = some it) {q : Ident} (hq : it.parent = some q) :
    (mapGet s.items q).isSome = true :=
  hInv.pexists (k, it) (mapGet_mem h) q hq

theorem Inv.ccomplete2 {s : TreeStore} (hInv : Inv s) {k : Ident} {it : TreeStoreItem}
    (h : mapGet s.items k = some it) {q : Ident} (hq : it.parent = some q) :
    ∃ c ∈ getChildren s q, c.id = k :=
  hInv.ccomplete (k, it) (mapGet_mem h) q hq

/-- The stored parent of an identifier is unique: any `pstep` out of `a`
goes to the recorded parent. -/
theorem pstep_unique {s : TreeStore} {a b1 b2 : Ident}
    (h1 : pstep s a b1) (h2 : pstep s a b2) : b1 = b2 := by
  rcases h1 with ⟨it1, hg1, hp1⟩
  rcases h2 with ⟨it2, hg2, hp2⟩
  have : it1 = it2 := Option.some.inj (hg1.symm.trans hg2)
  subst this
  exact Option.some.inj (hp1.symm.trans hp2)

end TreeStore

namespace TreeStore

theorem Inv_addItem {s t : TreeStore} {x : TreeStoreItem} (hInv : Inv s)
    (hadd : addItem s x = some (t, none)) : Inv t := by
  by_cases h1 : mapHas s.items x.id = true
  · rw [addItem_exists h1] at hadd
    exact absurd (Prod.ext_iff.mp (Option.some.inj hadd)).2 (by simp)
  · have h1f : mapHas s.items x.id = false := by simpa using h1
    have hxid_none : mapGet s.items x.id = none := by
      unfold mapHas at h1f
      cases hx : mapGet s.items x.id
      · rfl
      · rw [hx] at h1f; exact absurd h1f (by simp)
    have hxid_notin : x.id ∉ s.items.map Prod.fst := (mapGet_eq_none_iff _ _).mp hxid_none
    have hikeys : ((mapSet s.items x.id x).map Prod.fst).Nodup := by
      rw [keys_mapSet, if_neg hxid_notin]
      exact List.Nodup.append hInv.ikeys (List.nodup_singleton _)
        (by simpa [List.disjoint_singleton] using hxid_notin)
    have hget : ∀ j, mapGet (mapSet s.items x.id x) j =
        if j = x.id then some x else mapGet s.items j := fun j => mapGet_mapSet _ _ _ _
    have hchild_ne_x : ∀ k, ∀ c ∈ getChildren s k, ¬ c.id = x.id := by
      intro k c hc hcx
      have := getChildren_cexists hInv hc
      unfold storedParent at this
      rw [hcx, hxid_none] at this
      exact Option.noConfusion this
    have hno_into_sx : ∀ a b, pstep s a b → ¬ b = x.id := by
      intro a b hab hb
      rcases hab with ⟨it, hg, hp2⟩
      have := hInv.pexists2 hg hp2
      rw [hb, hxid_none] at this
      exact absurd this (by simp)
    cases hp : x.parent with
    | none =>
      rw [addItem_ok_root h1f hp] at hadd
      obtain rfl : t = TreeStore.mk (mapSet s.items x.id x) s.childrenMap :=
        (Prod.ext_iff.mp (Option.some.inj hadd)).1.symm
      refine Inv_of_parts hikeys hInv.ckeys ?_ ?_ ?_ ?_ ?_ ?_
      · intro k it h
        replace h : mapGet (mapSet s.items x.id x) k = some it := h
        rw [hget k] at h
        by_cases hk : k = x.id
        · rw [if_pos hk] at h
          rw [← Option.some.inj h, hk]
        · rw [if_neg hk] at h
          exact hInv.kmatch2 h
      · intro k it h q hq
        replace h : mapGet (mapSet s.items x.id x) k = some it := h
        show (mapGet (mapSet s.items x.id x) q).isSome = true
        rw [hget k] at h
        rw [hget q]
        by_cases hqx : q = x.id
        · simp [hqx]
        · rw [if_neg hqx]
          by_cases hk : k = x.id
          · rw [if_pos hk] at h
            rw [← Option.some.inj h, hp] at hq
            exact Option.noConfusion hq
          · rw [if_neg hk] at h
            exact hInv.pexists2 h hq
      · intro k c hc
        replace hc : c ∈ getChildren s k := hc
        show (mapGet (mapSet s.items x.id x) c.id).map TreeStoreItem.parent = _
        rw [hget c.id, if_neg (hchild_ne_x k c hc)]
        exact getChildren_cexists hInv hc
      · intro k it h q hq
        replace h : mapGet (mapSet s.items x.id x) k = some it := h
        rw [hget k] at h
        by_cases hk : k = x.id
        · rw [if_pos hk] at h
          rw [← Option.some.inj h, hp] at hq
          exact Option.noConfusion hq
        · rw [if_neg hk] at h
          exact hInv.ccomplete2 h hq
      · intro k
        exact getChildren_nodup hInv k
      · intro a hcyc
        have hproj : ∀ c d, pstep (TreeStore.mk (mapSet s.items x.id x) s.childrenMap) c d
            → ¬ c = x.id → pstep s c d := by
          intro c d hcd hc
          rcases hcd with ⟨it, hg, hpp⟩
          replace hg : mapGet (mapSet s.items x.id x) c = some it := hg
          rw [hget c, if_neg hc] at hg
          exact ⟨it, hg, hpp⟩
        have hnos : ∀ d, ¬ pstep (TreeStore.mk (mapSet s.items x.id x) s.childrenMap)
            x.id d := by
          intro d hd
          rcases hd with ⟨it, hg, hpp⟩
          replace hg : mapGet (mapSet s.items x.id x) x.id = some it := hg
          rw [hget x.id, if_pos rfl] at hg
          rw [← Option.some.inj hg, hp] at hpp
          exact Option.noConfusion hpp
        exact hInv.acyc a (transGen_no_source hproj hnos a a hcyc)
    | some p =>
      by_cases h2 : mapHas s.items p = true
      · cases hw : wouldCreateCircularReference s x.id p with
        | none =>
          rw [addItem_diverge h1f hp h2 hw] at hadd
          exact Option.noConfusion hadd
        | some b =>
          cases b with
          | true =>
            rw [addItem_circular h1f hp h2 hw] at hadd
            exact absurd (Prod.ext_iff.mp (Option.some.inj hadd)).2 (by simp)
          | false =>
            rw [addItem_ok_parent h1f hp h2 hw] at hadd
            obtain rfl : t = TreeStore.mk (mapSet s.items x.id x)
                (pushChild s.childrenMap p x) :=
              (Prod.ext_iff.mp (Option.some.inj hadd)).1.symm
            have hpx : ¬ p = x.id := by
              intro h
              unfold mapHas at h2
              rw [h, hxid_none] at h2
              exact absurd h2 (by simp)
            have hchild : ∀ k, getChildren (TreeStore.mk (mapSet s.items x.id x)
                (pushChild s.childrenMap p x)) k =
                if k = p then getChildren s k ++ [x] else getChildren s k := by
              intro k
              show (mapGet (pushChild s.childrenMap p x) k).getD [] = _
              by_cases hk : k = p
              · rw [hk, mapGet_pushChild_self, if_pos rfl]
                rfl
              · rw [mapGet_pushChild_ne _ _ _ _ hk, if_neg hk]
                rfl
            have hckeys : ((pushChild s.childrenMap p x).map Prod.fst).Nodup := by
              rw [keys_pushChild]
              by_cases hm : p ∈ s.childrenMap.map Prod.fst
              · rw [if_pos hm]
                exact hInv.ckeys
              · rw [if_neg hm]
                exact List.Nodup.append hInv.ckeys (List.nodup_singleton _)
                  (by simpa [List.disjoint_singleton] using hm)
            refine Inv_of_parts hikeys hckeys ?_ ?_ ?_ ?_ ?_ ?_
            · intro k it h
              replace h : mapGet (mapSet s.items x.id x) k = some it := h
              rw [hget k] at h
              by_cases hk : k = x.id
              · rw [if_pos hk] at h
                rw [← Option.some.inj h, hk]
              · rw [if_neg hk] at h
                exact hInv.kmatch2 h
            · intro k it h q hq
              replace h : mapGet (mapSet s.items x.id x) k = some it := h
              show (mapGet (mapSet s.items x.id x) q).isSome = true
              rw [hget k] at h
              rw [hget q]
              by_cases hqx : q = x.id
              · simp [hqx]
              · rw [if_neg hqx]
                by_cases hk : k = x.id
                · rw [if_pos hk] at h
                  rw [← Option.some.inj h, hp] at hq
                  have hqp : q = p := (Option.some.inj hq).symm
                  unfold mapHas at h2
                  rw [hqp]
                  exact h2
                · rw [if_neg hk] at h
                  exact hInv.pexists2 h hq
            · intro k c hc
              replace hc : c ∈ getChildren (TreeStore.mk (mapSet s.items x.id x)
                (pushChild s.childrenMap p x)) k := hc
              rw [hchild k] at hc
              show (mapGet (mapSet s.items x.id x) c.id).map TreeStoreItem.parent = _
              by_cases hk : k = p
              · rw [if_pos hk] at hc
                rcases List.mem_append.mp hc with h3 | h3
                · rw [hget c.id, if_neg (hchild_ne_x k c h3)]
                  exact getChildren_cexists hInv h3
                · have hcx : c = x := by simpa using h3
                  subst hcx
                  rw [hget c.id, if_pos rfl]
                  show some c.parent = some (some k)
                  rw [hp, hk]
              · rw [if_neg hk] at hc
                rw [hget c.id, if_neg (hchild_ne_x k c hc)]
                exact getChildren_cexists hInv hc
            · intro k it h q hq
              replace h : mapGet (mapSet s.items x.id x) k = some it := h
              rw [hget k] at h
              rw [hchild q]
              by_cases hk : k = x.id
              · rw [if_pos hk] at h
                rw [← Option.some.inj h, hp] at hq
                have hqp : q = p := (Option.some.inj hq).symm
                rw [if_pos hqp]
                exact ⟨x, List.mem_append.mpr (Or.inr (by simp)), by rw [hk]⟩
              · rw [if_neg hk] at h
                rcases hInv.ccomplete2 h hq with ⟨c, hc1, hc2⟩
                by_cases hqp : q = p
                · rw [if_pos hqp]
                  exact ⟨c, List.mem_append.mpr (Or.inl hc1), hc2⟩
                · rw [if_neg hqp]
                  exact ⟨c, hc1, hc2⟩
            · intro k
              rw [hchild k]
              by_cases hk : k = p
              · rw [if_pos hk, List.map_append]
                refine List.Nodup.append (getChildren_nodup hInv k)
                  (List.nodup_singleton _) ?_
                intro a ha hb
                have hax : a = x.id := by simpa using hb
                rcases List.mem_map.mp ha with ⟨c, hc, hcid⟩
                exact hchild_ne_x k c hc (hcid.trans hax)
              · rw [if_neg hk]
                exact getChildren_nodup hInv k
            · intro a hcyc
              have hproj : ∀ c d, pstep (TreeStore.mk (mapSet s.items x.id x)
                  (pushChild s.childrenMap p x)) c d → ¬ c = x.id → pstep s c d := by
                intro c d hcd hc
                rcases hcd with ⟨it, hg, hpp⟩
                replace hg : mapGet (mapSet s.items x.id x) c = some it := hg
                rw [hget c, if_neg hc] at hg
                exact ⟨it, hg, hpp⟩
              have hnot : ∀ c d, pstep (TreeStore.mk (mapSet s.items x.id x)
                  (pushChild s.childrenMap p x)) c d → ¬ d = x.id := by
                intro c d hcd hdx
                rcases hcd with ⟨it, hg, hpp⟩
                replace hg : mapGet (mapSet s.items x.id x) c = some it := hg
                rw [hget c] at hg
                by_cases hc : c = x.id
                · rw [if_pos hc] at hg
                  rw [← Option.some.inj hg, hp] at hpp
                  exact hpx ((Option.some.inj hpp).trans hdx)
                · rw [if_neg hc] at hg
                  exact hno_into_sx c d ⟨it, hg, hpp⟩ hdx
              have hax : ¬ a = x.id := by
                rcases transGen_exists_last hcyc with ⟨z, hz⟩
                exact hnot z a hz
              exact hInv.acyc a (transGen_no_target hproj hnot a a hcyc hax)
      · have h2f : mapHas s.items p = false := by simpa using h2
        rw [addItem_parentNotFound h1f hp h2f] at hadd
        exact absurd (Prod.ext_iff.mp (Option.some.inj hadd)).2 (by simp)

end TreeStore

namespace TreeStore

theorem removeItem_ok_state {s : TreeStore} (hInv : Inv s) {id : Ident}
    {item : TreeStoreItem} (hm : mapGet s.items id = some item) :
    ∃ (t : TreeStore) (out : List TreeStoreItem), removeItem s id = some t ∧
      (∀ b, (∃ c ∈ out, c.id = b) ↔ Anc s b id) ∧
      (t.items.map Prod.fst).Nodup ∧
      (t.childrenMap.map Prod.fst).Nodup ∧
      (∀ k, mapGet t.items k = if k = id then none
        else if ∃ c ∈ out, c.id = k then none else mapGet s.items k) ∧
      (∀ k, getChildren t k = if k = id then []
        else if ∃ c ∈ out, c.id = k then []
        else if item.parent = some k then removeFirstById (getChildren s k) id
        else getChildren s k) := by
  rcases getAllChildren_spec hInv id with ⟨out, hout, hnd, hmem, _⟩
  have hmem2 : ∀ b, (∃ c ∈ out, c.id = b) ↔ Anc s b id := by
    intro b
    rw [← hmem b]
    constructor
    · rintro ⟨c, hc, hcb⟩
      exact List.mem_map.mpr ⟨c, hc, hcb⟩
    · intro h
      rcases List.mem_map.mp h with ⟨c, hc, hcb⟩
      exact ⟨c, hc, hcb⟩
  have hnd1 : (((out.foldl (fun m c => mapDelete m c.id) s.items)).map Prod.fst).Nodup :=
    ((foldl_mapDelete_sublist out s.items).map Prod.fst).nodup hInv.ikeys
  have hnd2 : (((out.foldl (fun m c => mapDelete m c.id) s.childrenMap)).map
      Prod.fst).Nodup :=
    ((foldl_mapDelete_sublist out s.childrenMap).map Prod.fst).nodup hInv.ckeys
  have hnd1d : ((mapDelete (out.foldl (fun m c => mapDelete m c.id) s.items) id).map
      Prod.fst).Nodup :=
    ((mapDelete_sublist _ id).map Prod.fst).nodup hnd1
  have hnd2d : ((mapDelete (out.foldl (fun m c => mapDelete m c.id) s.childrenMap)
      id).map Prod.fst).Nodup :=
    ((mapDelete_sublist _ id).map Prod.fst).nodup hnd2
  have hitems : ∀ k,
      mapGet (mapDelete (out.foldl (fun m c => mapDelete m c.id) s.items) id) k =
        if k = id then none
        else if ∃ c ∈ out, c.id = k then none else mapGet s.items k := by
    intro k
    rw [mapGet_mapDelete _ _ _ hnd1]
    by_cases hkid : k = id
    · rw [if_pos hkid, if_pos hkid]
    · rw [if_neg hkid, if_neg hkid, foldl_mapDelete_get _ _ _ hInv.ikeys]
  have hcm : ∀ k,
      mapGet (mapDelete (out.foldl (fun m c => mapDelete m c.id) s.childrenMap) id) k =
        if k = id then none
        else if ∃ c ∈ out, c.id = k then none else mapGet s.childrenMap k := by
    intro k
    rw [mapGet_mapDelete _ _ _ hnd2]
    by_cases hkid : k = id
    · rw [if_pos hkid, if_pos hkid]
    · rw [if_neg hkid, if_neg hkid, foldl_mapDelete_get _ _ _ hInv.ckeys]
  cases hpar : item.parent with
  | none =>
    refine ⟨TreeStore.mk
      (mapDelete (out.foldl (fun m c => mapDelete m c.id) s.items) id)
      (mapDelete (out.foldl (fun m c => mapDelete m c.id) s.childrenMap) id),
      out, ?_, hmem2, hnd1d, hnd2d, hitems, ?_⟩
    · have hpr := removeItem_present hm hout
      rw [hpar] at hpr
      exact hpr
    · intro k
      show (mapGet (mapDelete (out.foldl (fun m c => mapDelete m c.id) s.childrenMap)
        id) k).getD [] = _
      rw [hcm k]
      have hnp : ¬ (none : Option Ident) = some k := fun h => Option.noConfusion h
      by_cases hkid : k = id
      · rw [if_pos hkid, if_pos hkid]
        rfl
      · rw [if_neg hkid, if_neg hkid]
        by_cases hex : ∃ c ∈ out, c.id = k
        · rw [if_pos hex, if_pos hex]
          rfl
        · rw [if_neg hex, if_neg hex, if_neg hnp]
          rfl
  | some p =>
    refine ⟨TreeStore.mk
      (mapDelete (out.foldl (fun m c => mapDelete m c.id) s.items) id)
      (spliceChild
        (mapDelete (out.foldl (fun m c => mapDelete m c.id) s.childrenMap) id) p id),
      out, ?_, hmem2, hnd1d, ?_, hitems, ?_⟩
    · have hpr := removeItem_present hm hout
      rw [hpar] at hpr
      exact hpr
    · show ((spliceChild _ p id).map Prod.fst).Nodup
      rw [keys_spliceChild]
      exact hnd2d
    · intro k
      show (mapGet (spliceChild (mapDelete (out.foldl (fun m c => mapDelete m c.id)
        s.childrenMap) id) p id) k).getD [] = _
      by_cases hkp : k = p
      · subst hkp
        rw [mapGet_spliceChild_self, hcm k]
        by_cases hkid : k = id
        · rw [if_pos hkid, if_pos hkid]
          rfl
        · rw [if_neg hkid, if_neg hkid]
          by_cases hex : ∃ c ∈ out, c.id = k
          · rw [if_pos hex, if_pos hex]
            rfl
          · rw [if_neg hex, if_neg hex, if_pos rfl]
            unfold getChildren
            cases mapGet s.childrenMap k with
            | none => rfl
            | some l => rfl
      · rw [mapGet_spliceChild_ne _ _ _ _ hkp, hcm k]
        have hnpk : ¬ (some p : Option Ident) = some k :=
          fun h => hkp (Option.some.inj h).symm
        by_cases hkid : k = id
        · rw [if_pos hkid, if_pos hkid]
          rfl
        · rw [if_neg hkid, if_neg hkid]
          by_cases hex : ∃ c ∈ out, c.id = k
          · rw [if_pos hex, if_pos hex]
            rfl
          · rw [if_neg hex, if_neg hex, if_neg hnpk]
            rfl

end TreeStore

namespace TreeStore

theorem Inv_removeItem {s t : TreeStore} {id : Ident} (hInv : Inv s)
    (hrem : removeItem s id = some t) : Inv t := by
  cases hm : mapGet s.items id with
  | none =>
    rw [removeItem_absent hm] at hrem
    obtain rfl : t = s := (Option.some.inj hrem).symm
    exact hInv
  | some item =>
    rcases removeItem_ok_state hInv hm with ⟨t2, out, hrem2, hiff, hik, hck, hit, hch⟩
    obtain rfl : t = t2 := Option.some.inj (hrem.symm.trans hrem2)
    have hparent_surv : ∀ a b, pstep s a b → ¬ (a = id ∨ Anc s a id) →
        ¬ (b = id ∨ Anc s b id) := by
      intro a b hab ha hb
      rcases hb with h1 | h1
      · exact ha (Or.inr (Relation.TransGen.single (h1 ▸ hab)))
      · exact ha (Or.inr (Relation.TransGen.head hab h1))
    have hsurvchild : ∀ k c, ¬ (k = id ∨ Anc s k id) → pstep s c k → ¬ c = id →
        ¬ (c = id ∨ Anc s c id) := by
      intro k c hk hck2 hcid h
      rcases h with h1 | h1
      · exact hcid h1
      · rcases Relation.TransGen.head'_iff.mp h1 with ⟨y, hy, hrest⟩
        obtain rfl : y = k := pstep_unique hy hck2
        rcases Relation.ReflTransGen.cases_head hrest with h2 | ⟨z, hz1, hz2⟩
        · exact hk (Or.inl h2)
        · exact hk (Or.inr (Relation.TransGen.head' hz1 hz2))
    have hsurv_inv : ∀ k it2, mapGet t.items k = some it2 →
        ¬ k = id ∧ ¬ (∃ c ∈ out, c.id = k) ∧ mapGet s.items k = some it2 := by
      intro k it2 h
      rw [hit k] at h
      by_cases h1 : k = id
      · rw [if_pos h1] at h
        exact Option.noConfusion h
      · rw [if_neg h1] at h
        by_cases h2 : ∃ c ∈ out, c.id = k
        · rw [if_pos h2] at h
          exact Option.noConfusion h
        · rw [if_neg h2] at h
          exact ⟨h1, h2, h⟩
    have hnodel_of : ∀ k, ¬ k = id → ¬ (∃ c ∈ out, c.id = k) →
        ¬ (k = id ∨ Anc s k id) := by
      intro k h1 h2 hh
      rcases hh with hh | hh
      · exact h1 hh
      · exact h2 ((hiff k).mpr hh)
    have hkeep_it : ∀ k, ¬ (k = id ∨ Anc s k id) →
        mapGet t.items k = mapGet s.items k := by
      intro k hk
      rw [hit k, if_neg (fun h => hk (Or.inl h)),
        if_neg (fun h => hk (Or.inr ((hiff k).mp h)))]
    have hkeep_ch : ∀ k, ¬ (k = id ∨ Anc s k id) → ¬ item.parent = some k →
        getChildren t k = getChildren s k := by
      intro k hk hp2
      rw [hch k, if_neg (fun h => hk (Or.inl h)),
        if_neg (fun h => hk (Or.inr ((hiff k).mp h))), if_neg hp2]
    have hkeep_ch_p : ∀ k, ¬ (k = id ∨ Anc s k id) → item.parent = some k →
        getChildren t k = removeFirstById (getChildren s k) id := by
      intro k hk hp2
      rw [hch k, if_neg (fun h => hk (Or.inl h)),
        if_neg (fun h => hk (Or.inr ((hiff k).mp h))), if_pos hp2]
    refine Inv_of_parts hik hck ?_ ?_ ?_ ?_ ?_ ?_
    · intro k it2 h
      exact hInv.kmatch2 (hsurv_inv k it2 h).2.2
    · intro k it2 h q hq
      rcases hsurv_inv k it2 h with ⟨h1, h2, hold⟩
      have hk := hnodel_of k h1 h2
      have hq_surv := hparent_surv k q ⟨it2, hold, hq⟩ hk
      rw [hkeep_it q hq_surv]
      exact hInv.pexists2 hold hq
    · intro k c hc
      by_cases h1 : k = id
      · rw [hch k, if_pos h1] at hc
        exact absurd hc (List.not_mem_nil c)
      · by_cases h2 : ∃ x ∈ out, x.id = k
        · rw [hch k, if_neg h1, if_pos h2] at hc
          exact absurd hc (List.not_mem_nil c)
        · have hk := hnodel_of k h1 h2
          by_cases h3 : item.parent = some k
          · rw [hkeep_ch_p k hk h3] at hc
            rcases (mem_removeFirstById_iff (getChildren_nodup hInv k) c).mp hc with
              ⟨hcold, hcne⟩
            have hsp := getChildren_cexists hInv hcold
            have hpst := (storedParent_iff_pstep s c.id k).mp hsp
            have hcsurv := hsurvchild k c.id hk hpst hcne
            unfold storedParent
            rw [hkeep_it c.id hcsurv]
            exact hsp
          · rw [hkeep_ch k hk h3] at hc
            have hsp := getChildren_cexists hInv hc
            have hpst := (storedParent_iff_pstep s c.id k).mp hsp
            have hcne : ¬ c.id = id := by
              intro he
              rw [he] at hsp
              have hspid : storedParent s id = some item.parent := by
                unfold storedParent
                rw [hm]
                rfl
              exact h3 (Option.some.inj (hspid.symm.trans hsp))
            have hcsurv := hsurvchild k c.id hk hpst hcne
            unfold storedParent
            rw [hkeep_it c.id hcsurv]
            exact hsp
    · intro k it2 h q hq
      rcases hsurv_inv k it2 h with ⟨h1, h2, hold⟩
      have hk := hnodel_of k h1 h2
      have hq_surv := hparent_surv k q ⟨it2, hold, hq⟩ hk
      rcases hInv.ccomplete2 hold hq with ⟨c, hcq, hcid⟩
      by_cases hq3 : item.parent = some q
      · rw [hkeep_ch_p q hq_surv hq3]
        exact ⟨c, (mem_removeFirstById_iff (getChildren_nodup hInv q) c).mpr
          ⟨hcq, by rw [hcid]; exact h1⟩, hcid⟩
      · rw [hkeep_ch q hq_surv hq3]
        exact ⟨c, hcq, hcid⟩
    · intro k
      rw [hch k]
      by_cases h1 : k = id
      · rw [if_pos h1]
        simp
      · rw [if_neg h1]
        by_cases h2 : ∃ x ∈ out, x.id = k
        · rw [if_pos h2]
          simp
        · rw [if_neg h2]
          by_cases h3 : item.parent = some k
          · rw [if_pos h3]
            exact ((removeFirstById_sublist _ _).map TreeStoreItem.id).nodup
              (getChildren_nodup hInv k)
          · rw [if_neg h3]
            exact getChildren_nodup hInv k
    · intro a hcyc
      refine hInv.acyc a (Relation.TransGen.mono ?_ hcyc)
      intro x y hxy
      rcases hxy with ⟨it2, hg, hpp⟩
      exact ⟨it2, (hsurv_inv x it2 hg).2.2, hpp⟩

end TreeStore

namespace TreeStore

theorem Inv_updateItem {s t : TreeStore} {u : TreeStoreItem} (hInv : Inv s)
    (hupd : updateItem s u = some (t, none)) : Inv t := by
  rcases updateItem_ok_state hupd with ⟨ex0, hm, rfl, hchecks⟩
  have hexp : storedParent s u.id = some ex0.parent := by
    unfold storedParent
    rw [hm]
    rfl
  have huid_in : u.id ∈ s.items.map Prod.fst := by
    rw [← mapGet_isSome_iff]
    simp [hm]
  have hikeys : ((applyUpdate s u ex0).items.map Prod.fst).Nodup := by
    show ((mapSet s.items u.id u).map Prod.fst).Nodup
    rw [keys_mapSet, if_pos huid_in]
    exact hInv.ikeys
  have hget : ∀ j, mapGet (applyUpdate s u ex0).items j =
      if j = u.id then some u else mapGet s.items j := by
    intro j
    show mapGet (mapSet s.items u.id u) j = _
    rw [mapGet_mapSet]
  have holdrec : ∀ k c, c ∈ getChildren s k → c.id = u.id → ex0.parent = some k := by
    intro k c hc hcid
    have hce := getChildren_cexists hInv hc
    rw [hcid] at hce
    exact Option.some.inj (hexp.symm.trans hce)
  have hkmatch : ∀ k it, mapGet (applyUpdate s u ex0).items k = some it → it.id = k := by
    intro k it h
    rw [hget k] at h
    by_cases hk : k = u.id
    · rw [if_pos hk] at h
      rw [← Option.some.inj h, hk]
    · rw [if_neg hk] at h
      exact hInv.kmatch2 h
  have hpexists : ∀ k it, mapGet (applyUpdate s u ex0).items k = some it →
      ∀ q, it.parent = some q → (mapGet (applyUpdate s u ex0).items q).isSome = true := by
    intro k it h q hq
    rw [hget k] at h
    rw [hget q]
    by_cases hqu : q = u.id
    · simp [hqu]
    · rw [if_neg hqu]
      by_cases hk : k = u.id
      · rw [if_pos hk] at h
        obtain rfl : it = u := (Option.some.inj h).symm
        rcases hchecks q hq with ⟨hhas, _⟩
        unfold mapHas at hhas
        exact hhas
      · rw [if_neg hk] at h
        exact hInv.pexists2 h hq
  by_cases hsame : ex0.parent = u.parent
  · have hchild : ∀ k, getChildren (applyUpdate s u ex0) k = getChildren s k := by
      intro k
      show (mapGet (applyUpdate s u ex0).childrenMap k).getD [] = _
      rw [applyUpdate_cm_same hsame]
      rfl
    refine Inv_of_parts hikeys ?_ hkmatch hpexists ?_ ?_ ?_ ?_
    · show ((applyUpdate s u ex0).childrenMap.map Prod.fst).Nodup
      rw [applyUpdate_cm_same hsame]
      exact hInv.ckeys
    · intro k c hc
      rw [hchild k] at hc
      have hce := getChildren_cexists hInv hc
      unfold storedParent
      rw [hget c.id]
      by_cases hcu : c.id = u.id
      · rw [if_pos hcu]
        rw [hcu] at hce
        have : ex0.parent = some k := Option.some.inj (hexp.symm.trans hce)
        show some u.parent = some (some k)
        rw [← hsame, this]
      · rw [if_neg hcu]
        exact hce
    · intro k it h q hq
      rw [hget k] at h
      rw [hchild q]
      by_cases hk : k = u.id
      · rw [if_pos hk] at h
        obtain rfl : it = u := (Option.some.inj h).symm
        rw [← hsame] at hq
        rcases hInv.ccomplete2 hm hq with ⟨c, hcq, hcid⟩
        exact ⟨c, hcq, by rw [hcid, hk]⟩
      · rw [if_neg hk] at h
        exact hInv.ccomplete2 h hq
    · intro k
      rw [hchild k]
      exact getChildren_nodup hInv k
    · intro a hcyc
      refine hInv.acyc a (Relation.TransGen.mono ?_ hcyc)
      intro x y hxy
      rcases hxy with ⟨it, hg, hpp⟩
      rw [hget x] at hg
      by_cases hx : x = u.id
      · rw [if_pos hx] at hg
        obtain rfl : it = u := (Option.some.inj hg).symm
        refine ⟨ex0, hx ▸ hm, ?_⟩
        rw [hsame]
        exact hpp
      · rw [if_neg hx] at hg
        exact ⟨it, hg, hpp⟩
  · have hchild : ∀ k, getChildren (applyUpdate s u ex0) k =
        if u.parent = some k
          then (if ex0.parent = some k
            then removeFirstById (getChildren s k) u.id else getChildren s k) ++ [u]
          else (if ex0.parent = some k
            then removeFirstById (getChildren s k) u.id else getChildren s k) := by
      intro k
      show (mapGet (applyUpdate s u ex0).childrenMap k).getD [] = _
      cases hep : ex0.parent with
      | none =>
        cases hup : u.parent with
        | none =>
          exfalso
          rw [hep, hup] at hsame
          exact hsame rfl
        | some np =>
          rw [applyUpdate_cm_none_some hsame hep hup]
          have hepk : ¬ (none : Option Ident) = some k := fun h => Option.noConfusion h
          by_cases hk : k = np
          · subst hk
            rw [mapGet_pushChild_self, if_pos rfl, if_neg hepk]
            rfl
          · have : ¬ (some np : Option Ident) = some k :=
              fun h => hk (Option.some.inj h).symm
            rw [mapGet_pushChild_ne _ _ _ _ hk, if_neg this, if_neg hepk]
            rfl
      | some op =>
        cases hup : u.parent with
        | none =>
          rw [applyUpdate_cm_some_none hsame hep hup]
          have hupk : ¬ (none : Option Ident) = some k := fun h => Option.noConfusion h
          by_cases hk : k = op
          · subst hk
            rw [mapGet_spliceChild_self, if_neg hupk, if_pos rfl]
            unfold getChildren
            cases mapGet s.childrenMap k with
            | none => rfl
            | some l => rfl
          · have hop : ¬ (some op : Option Ident) = some k :=
              fun h => hk (Option.some.inj h).symm
            rw [mapGet_spliceChild_ne _ _ _ _ hk, if_neg hupk, if_neg hop]
            rfl
        | some np =>
          have hopnp : ¬ op = np := by
            intro h
            rw [hep, hup, h] at hsame
            exact hsame rfl
          rw [applyUpdate_cm_some_some hsame hep hup]
          by_cases hk : k = np
          · subst hk
            have hknop : ¬ k = op := fun h => hopnp h.symm
            have hepk : ¬ (some op : Option Ident) = some k :=
              fun h => hknop (Option.some.inj h).symm
            rw [mapGet_pushChild_self, mapGet_spliceChild_ne _ _ _ _ hknop,
              if_pos rfl, if_neg hepk]
            rfl
          · have hupk : ¬ (some np : Option Ident) = some k :=
              fun h => hk (Option.some.inj h).symm
            rw [mapGet_pushChild_ne _ _ _ _ hk]
            by_cases hko : k = op
            · subst hko
              rw [mapGet_spliceChild_self, if_neg hupk, if_pos rfl]
              unfold getChildren
              cases mapGet s.childrenMap k with
              | none => rfl
              | some l => rfl
            · have hepk : ¬ (some op : Option Ident) = some k :=
                fun h => hko (Option.some.inj h).symm
              rw [mapGet_spliceChild_ne _ _ _ _ hko, if_neg hupk, if_neg hepk]
              rfl
    have hbase_mem : ∀ k c, c ∈ (if ex0.parent = some k
        then removeFirstById (getChildren s k) u.id else getChildren s k) →
        c ∈ getChildren s k ∧ ¬ c.id = u.id := by
      intro k c hc
      by_cases hk : ex0.parent = some k
      · rw [if_pos hk] at hc
        exact (mem_removeFirstById_iff (getChildren_nodup hInv k) c).mp hc
      · rw [if_neg hk] at hc
        refine ⟨hc, fun hcid => hk (holdrec k c hc hcid)⟩
    have hbase_nd : ∀ k, ((if ex0.parent = some k
        then removeFirstById (getChildren s k) u.id else getChildren s k).map
        TreeStoreItem.id).Nodup := by
      intro k
      by_cases hk : ex0.parent = some k
      · rw [if_pos hk]
        exact ((removeFirstById_sublist _ _).map TreeStoreItem.id).nodup
          (getChildren_nodup hInv k)
      · rw [if_neg hk]
        exact getChildren_nodup hInv k
    have hckeys : ((applyUpdate s u ex0).childrenMap.map Prod.fst).Nodup := by
      cases hep : ex0.parent with
      | none =>
        cases hup : u.parent with
        | none =>
          exfalso
          rw [hep, hup] at hsame
          exact hsame rfl
        | some np =>
          rw [applyUpdate_cm_none_some hsame hep hup, keys_pushChild]
          by_cases hmem : np ∈ s.childrenMap.map Prod.fst
          · rw [if_pos hmem]
            exact hInv.ckeys
          · rw [if_neg hmem]
            exact List.Nodup.append hInv.ckeys (List.nodup_singleton _)
              (by simpa [List.disjoint_singleton] using hmem)
      | some op =>
        cases hup : u.parent with
        | none =>
          rw [applyUpdate_cm_some_none hsame hep hup, keys_spliceChild]
          exact hInv.ckeys
        | some np =>
          rw [applyUpdate_cm_some_some hsame hep hup, keys_pushChild, keys_spliceChild]
          by_cases hmem : np ∈ s.childrenMap.map Prod.fst
          · rw [if_pos hmem]
            exact hInv.ckeys
          · rw [if_neg hmem]
            exact List.Nodup.append hInv.ckeys (List.nodup_singleton _)
              (by simpa [List.disjoint_singleton] using hmem)
    refine Inv_of_parts hikeys hckeys hkmatch hpexists ?_ ?_ ?_ ?_
    · intro k c hc
      rw [hchild k] at hc
      have hfromBase : c ∈ (if ex0.parent = some k
          then removeFirstById (getChildren s k) u.id else getChildren s k) →
          storedParent (applyUpdate s u ex0) c.id = some (some k) := by
        intro hcb
        rcases hbase_mem k c hcb with ⟨hold, hne⟩
        unfold storedParent
        rw [hget c.id, if_neg hne]
        exact getChildren_cexists hInv hold
      by_cases hpk : u.parent = some k
      · rw [if_pos hpk] at hc
        rcases List.mem_append.mp hc with h1 | h1
        · exact hfromBase h1
        · have hcu : c = u := by simpa using h1
          subst hcu
          unfold storedParent
          rw [hget c.id, if_pos rfl]
          show some c.parent = some (some k)
          rw [hpk]
      · rw [if_neg hpk] at hc
        exact hfromBase hc
    · intro k it h q hq
      rw [hget k] at h
      rw [hchild q]
      by_cases hk : k = u.id
      · rw [if_pos hk] at h
        have hitu : it = u := (Option.some.inj h).symm
        rw [hitu] at hq
        rw [if_pos hq]
        exact ⟨u, List.mem_append.mpr (Or.inr (by simp)), by rw [hk]⟩
      · rw [if_neg hk] at h
        rcases hInv.ccomplete2 h hq with ⟨c, hcq, hcid⟩
        have hcbase : c ∈ (if ex0.parent = some q
            then removeFirstById (getChildren s q) u.id else getChildren s q) := by
          by_cases hepq : ex0.parent = some q
          · rw [if_pos hepq]
            refine (mem_removeFirstById_iff (getChildren_nodup hInv q) c).mpr
              ⟨hcq, ?_⟩
            rw [hcid]
            exact hk
          · rw [if_neg hepq]
            exact hcq
        by_cases hpq : u.parent = some q
        · rw [if_pos hpq]
          exact ⟨c, List.mem_append.mpr (Or.inl hcbase), hcid⟩
        · rw [if_neg hpq]
          exact ⟨c, hcbase, hcid⟩
    · intro k
      rw [hchild k]
      by_cases hpk : u.parent = some k
      · rw [if_pos hpk, List.map_append]
        refine List.Nodup.append (hbase_nd k) (List.nodup_singleton _) ?_
        intro a ha hb
        have hau : a = u.id := by simpa using hb
        rcases List.mem_map.mp ha with ⟨c, hc, hcid⟩
        exact (hbase_mem k c hc).2 (hcid.trans hau)
      · rw [if_neg hpk]
        exact hbase_nd k
    · intro a hcyc
      have hproj : ∀ x y, pstep (applyUpdate s u ex0) x y → ¬ x = u.id →
          pstep s x y := by
        intro x y hxy hx
        rcases hxy with ⟨it, hg, hpp⟩
        replace hg : mapGet (applyUpdate s u ex0).items x = some it := hg
        rw [hget x, if_neg hx] at hg
        exact ⟨it, hg, hpp⟩
      cases hup : u.parent with
      | none =>
        have hnos : ∀ y, ¬ pstep (applyUpdate s u ex0) u.id y := by
          intro y hy
          rcases hy with ⟨it, hg, hpp⟩
          replace hg : mapGet (applyUpdate s u ex0).items u.id = some it := hg
          rw [hget u.id, if_pos rfl] at hg
          rw [← Option.some.inj hg, hup] at hpp
          exact Option.noConfusion hpp
        exact hInv.acyc a (transGen_no_source hproj hnos a a hcyc)
      | some np =>
        rcases hchecks np hup with ⟨_, hw⟩
        rcases wouldCreate_spec hInv u.id np with ⟨r, hwr, hiffr⟩
        obtain rfl : r = false := Option.some.inj (hwr.symm.trans hw)
        have hnc : ¬ (u.id = np ∨ Anc s np u.id) := by
          intro h
          exact Bool.false_ne_true (hiffr.mpr h)
        have hout : ∀ y, pstep (applyUpdate s u ex0) u.id y → y = np := by
          intro y hy
          rcases hy with ⟨it, hg, hpp⟩
          replace hg : mapGet (applyUpdate s u ex0).items u.id = some it := hg
          rw [hget u.id, if_pos rfl] at hg
          rw [← Option.some.inj hg, hup] at hpp
          exact (Option.some.inj hpp).symm
        rcases transGen_suffix hproj hout a a hcyc with h1 | h1
        · exact hInv.acyc a h1
        · rcases transGen_prefix hproj a a hcyc with h2 | h2
          · exact hInv.acyc a h2
          · have hnpu : Relation.ReflTransGen (pstep s) np u.id :=
              Relation.ReflTransGen.trans h1 h2
            rcases Relation.ReflTransGen.cases_head hnpu with h3 | ⟨z, hz1, hz2⟩
            · exact hnc (Or.inl h3.symm)
            · exact hnc (Or.inr (Relation.TransGen.head' hz1 hz2))

end TreeStore

namespace TreeStore

/-- States reachable from `s` by successful mutating calls. -/
inductive Reach : TreeStore → TreeStore → Prop where
  | refl (s : TreeStore) : Reach s s
  | add {s t0 t1 : TreeStore} (it : TreeStoreItem) :
      Reach s t0 → addItem t0 it = some (t1, none) → Reach s t1
  | upd {s t0 t1 : TreeStore} (it : TreeStoreItem) :
      Reach s t0 → updateItem t0 it = some (t1, none) → Reach s t1
  | rem {s t0 t1 : TreeStore} (id : Ident) :
      Reach s t0 → removeItem t0 id = some t1 → Reach s t1

/-- The invariants are preserved by every successful mutating call. -/
theorem Inv_reach {s t : TreeStore} (hInv : Inv s) (h : Reach s t) : Inv t := by
  induction h with
  | refl => exact hInv
  | add it _ h2 ih => exact Inv_addItem ih h2
  | upd it _ h2 ih => exact Inv_updateItem ih h2
  | rem id _ h2 ih => exact Inv_removeItem ih h2

end TreeStore

open TreeStore in
/-- C2 (amended): no sequence of successful `addItem`/`updateItem`/
`removeItem` calls starting from an invariant-satisfying store produces an
item that is its own ancestor; an `updateItem` whose non-null parent
equals the item's own id or is a current descendant of it fails with
`CircularReference`; an `addItem` with such a parent also fails, but with
`ItemAlreadyExists` or `ParentNotFound` (the earlier checks fire first),
never with `CircularReference`. -/
theorem claim_C2_acyclicity (s t : TreeStore) (hInv : Inv s) (hr : Reach s t) :
    Acyclic t ∧
    (∀ u np, u.parent = some np → (mapGet t.items u.id).isSome = true →
      (np = u.id ∨ Anc t np u.id) →
      updateItem t u = some (t, some Error.circularReference)) ∧
    (∀ x p, x.parent = some p → (p = x.id ∨ Anc t p x.id) →
      ∃ e, addItem t x = some (t, some e) ∧ ¬ e = Error.circularReference) := by
  have hInvT : Inv t := Inv_reach hInv hr
  refine ⟨hInvT.acyc, ?_, ?_⟩
  · intro u np hp hsome hcond
    rcases Option.isSome_iff_exists.mp hsome with ⟨ex, hex⟩
    have hnp_has : mapHas s.items np = true ∨ True := Or.inr trivial
    have hhas : mapHas t.items np = true := by
      unfold mapHas
      rcases hcond with h1 | h1
      · rw [h1, hex]
        rfl
      · exact anc_source_isSome h1
    rcases wouldCreate_spec hInvT u.id np with ⟨r, hwr, hiffr⟩
    have hr_true : r = true := by
      refine hiffr.mpr ?_
      rcases hcond with h1 | h1
      · exact Or.inl h1.symm
      · exact Or.inr h1
    rw [hr_true] at hwr
    exact updateItem_circular hex hp hhas hwr
  · intro x p hp hcond
    by_cases hhas : mapHas t.items x.id = true
    · exact ⟨Error.itemAlreadyExists x.id, addItem_exists hhas,
        fun h => Error.noConfusion h⟩
    · have hhf : mapHas t.items x.id = false := by simpa using hhas
      rcases hcond with h1 | h1
      · have hpf : mapHas t.items p = false := by rw [h1]; exact hhf
        exact ⟨Error.parentNotFound p, addItem_parentNotFound hhf hp hpf,
          fun h => Error.noConfusion h⟩
      · exfalso
        have := anc_target_isSome hInvT h1
        unfold mapHas at hhf
        rw [hhf] at this
        exact Bool.false_ne_true this

open TreeStore in
/-- Witness for C2: on the fixture, adding a fresh item whose parent is
its own id fails (here with `ParentNotFound`), not with
`CircularReference`. -/
theorem claim_C2_acyclicity_witness :
    ∃ e, addItem FixStore ⟨Ident.num 9, some (Ident.num 9), "self", []⟩ =
      some (FixStore, some e) ∧ ¬ e = Error.circularReference :=
  (claim_C2_acyclicity FixStore FixStore FixStore_Inv (Reach.refl FixStore)).2.2
    ⟨Ident.num 9, some (Ident.num 9), "self", []⟩ (Ident.num 9) (by decide)
    (Or.inl (by decide))

open TreeStore in
/-- Counterexample to C2 as stated: `addItem` of a fresh item whose
non-null parent equals its own id fails with `ParentNotFound`, not with
`CircularReference` (the parent-existence check fires before the circular
check). -/
theorem claim_C2_counterexample :
    addItem FixStore ⟨Ident.num 9, some (Ident.num 9), "self", []⟩ =
      some (FixStore, some (Error.parentNotFound (Ident.num 9))) ∧
    ¬ Error.parentNotFound (Ident.num 9) = Error.circularReference :=
  ⟨by decide, by decide⟩

open TreeStore in
/-- C1 (amended): after every successful mutating call from an
invariant-satisfying store, the secondary index inverts the stored
`parent` field at the identifier level: a record with id `k` appears in
`children[p]` iff `k` is stored with parent `p`; moreover an `updateItem`
that changes the parent appends the updated record itself to the new
parent's child list.  (After a parent-preserving update the listed record
keeps its previous field values, so record-level equality with the stored
item is not guaranteed; see the counterexample.) -/
theorem claim_C1_secondary_inverse (s t : TreeStore) (hInv : Inv s)
    (hop : (∃ x, addItem s x = some (t, none)) ∨
      (∃ u2, updateItem s u2 = some (t, none)) ∨
      (∃ id, removeItem s id = some t)) :
    (∀ k p, (∃ c ∈ getChildren t p, c.id = k) ↔
      (∃ it, mapGet t.items k = some it ∧ it.parent = some p)) ∧
    (∀ u2 existing np, updateItem s u2 = some (t, none) →
      mapGet s.items u2.id = some existing → ¬ existing.parent = u2.parent →
      u2.parent = some np → u2 ∈ getChildren t np) := by
  have hInvT : Inv t := by
    rcases hop with ⟨x, hx⟩ | ⟨u2, hu⟩ | ⟨id, hid⟩
    · exact Inv_addItem hInv hx
    · exact Inv_updateItem hInv hu
    · exact Inv_removeItem hInv hid
  constructor
  · intro k p
    constructor
    · rintro ⟨c, hc, hcid⟩
      have hce := getChildren_cexists hInvT hc
      unfold storedParent at hce
      cases hmt : mapGet t.items c.id with
      | none => rw [hmt] at hce; exact Option.noConfusion hce
      | some it =>
        rw [hmt] at hce
        refine ⟨it, hcid ▸ hmt, ?_⟩
        exact Option.some.inj hce
    · rintro ⟨it, hmt, hp⟩
      exact hInvT.ccomplete2 hmt hp
  · intro u2 existing np hupd2 hex hdiff hup
    rcases updateItem_ok_state hupd2 with ⟨ex0, hm0, happ, _⟩
    have hee : existing = ex0 := Option.some.inj (hex.symm.trans hm0)
    subst hee
    subst happ
    show u2 ∈ getChildren (applyUpdate s u2 existing) np
    cases hep : existing.parent with
    | none =>
      show u2 ∈ (mapGet (applyUpdate s u2 existing).childrenMap np).getD []
      rw [applyUpdate_cm_none_some hdiff hep hup, mapGet_pushChild_self]
      simp
    | some op =>
      show u2 ∈ (mapGet (applyUpdate s u2 existing).childrenMap np).getD []
      rw [applyUpdate_cm_some_some hdiff hep hup, mapGet_pushChild_self]
      simp

open TreeStore in
/-- Witness for C1: after adding item `9` under `1` on the fixture, the
identifier-level inverse holds at `k = 9`, `p = 1`. -/
theorem claim_C1_secondary_inverse_witness :
    (∃ c ∈ getChildren (TreeStore.mk
        (mapSet FixStore.items (Ident.num 9)
          ⟨Ident.num 9, some (Ident.num 1), "Item 9", []⟩)
        (pushChild FixStore.childrenMap (Ident.num 1)
          ⟨Ident.num 9, some (Ident.num 1), "Item 9", []⟩)) (Ident.num 1),
      c.id = Ident.num 9) ↔
    (∃ it, mapGet (TreeStore.mk
        (mapSet FixStore.items (Ident.num 9)
          ⟨Ident.num 9, some (Ident.num 1), "Item 9", []⟩)
        (pushChild FixStore.childrenMap (Ident.num 1)
          ⟨Ident.num 9, some (Ident.num 1), "Item 9", []⟩)).items (Ident.num 9)
        = some it ∧ it.parent = some (Ident.num 1)) :=
  (claim_C1_secondary_inverse FixStore _ FixStore_Inv
    (Or.inl ⟨⟨Ident.num 9, some (Ident.num 1), "Item 9", []⟩, by decide⟩)).1
    (Ident.num 9) (Ident.num 1)

open TreeStore in
/-- Counterexample to C1 as stated: after a successful parent-preserving
`updateItem` that changes the label from "b" to "c", the record found in
the parent's child list is still the old record "b", which differs from
the currently stored (updated) record "c". -/
theorem claim_C1_counterexample :
    ((updateItem (construct [⟨Ident.num 1, none, "a", []⟩,
        ⟨Ident.num 2, some (Ident.num 1), "b", []⟩])
      ⟨Ident.num 2, some (Ident.num 1), "c", []⟩).map
      (fun r => (r.2, getChildren r.1 (Ident.num 1), mapGet r.1.items (Ident.num 2)))) =
      some (none, [⟨Ident.num 2, some (Ident.num 1), "b", []⟩],
        some ⟨Ident.num 2, some (Ident.num 1), "c", []⟩) ∧
    ¬ (⟨Ident.num 2, some (Ident.num 1), "b", []⟩ : TreeStoreItem) =
      ⟨Ident.num 2, some (Ident.num 1), "c", []⟩ :=
  ⟨by decide, by decide⟩
